import Mathlib

/-!
Verification development for the `JitAllocator` core of the
LOL-CN-Anti-AntiCheat repository (asmjit `core/jitallocator.h`).

The repository ships only the header `jitallocator.h`.  The inline members
found there (`isInitialized`, the accessors `options` / `blockSize` /
`granularity` / `fillPattern`, and `Statistics` with `unusedSize`) are
embedded directly from that source.  The out-of-line implementation of
`alloc` / `release` / `shrink` and of the constructor is not part of the
repository sources, so those operations are modelled from the
specification (sections 3, 4.1-4.4, 6 and 7 of the design document):
bitmap pair with used/stop bits, blocks carved into granularity-sized
slots, pools with round-robin scanning, an address-to-block lookup, and
the empty-block retention policy.
-/

namespace JitModel

/-- Injection of `Except` into a sum type, used to derive decidable
equality of results. -/
def exceptToSum {ε α : Type} : Except ε α → ε ⊕ α
  | .error e => .inl e
  | .ok a => .inr a

instance {ε α : Type} [DecidableEq ε] [DecidableEq α] : DecidableEq (Except ε α) :=
  fun x y =>
    decidable_of_iff (exceptToSum x = exceptToSum y)
      (by cases x <;> cases y <;> simp [exceptToSum])

/-- Error taxonomy of the allocator, from the spec's error-handling design:
invalid-argument, out-of-memory, invalid-pointer, and
internal-consistency-violation. -/
inductive AsmError where
  | invalidArgument
  | outOfMemory
  | invalidPointer
  | internalConsistency
deriving DecidableEq

/-- Configuration record `JitAllocator::Impl` from the header: options,
base block size, base granularity, fill pattern. -/
structure Impl where
  options : Nat
  blockSize : Nat
  granularity : Nat
  fillPattern : Nat
deriving DecidableEq

/-- Parameter structure `JitAllocator::CreateParams` from the header. -/
structure CreateParams where
  options : Nat
  blockSize : Nat
  granularity : Nat
  fillPattern : Nat
deriving DecidableEq

/-- Option bit `kOptionUseDualMapping = 0x00000001`. -/
def kOptionUseDualMapping : Nat := 1
/-- Option bit `kOptionUseMultiplePools = 0x00000002`. -/
def kOptionUseMultiplePools : Nat := 2
/-- Option bit `kOptionFillUnusedMemory = 0x00000004`. -/
def kOptionFillUnusedMemory : Nat := 4
/-- Option bit `kOptionImmediateRelease = 0x00000008`. -/
def kOptionImmediateRelease : Nat := 8
/-- Option bit `kOptionCustomFillPattern = 0x10000000`. -/
def kOptionCustomFillPattern : Nat := 0x10000000

def dualMappingOpt (impl : Impl) : Bool := impl.options &&& kOptionUseDualMapping != 0
def multiplePoolsOpt (impl : Impl) : Bool := impl.options &&& kOptionUseMultiplePools != 0
def immediateReleaseOpt (impl : Impl) : Bool := impl.options &&& kOptionImmediateRelease != 0
def customFillPatternOpt (impl : Impl) : Bool := impl.options &&& kOptionCustomFillPattern != 0

/-- Modelled from the spec: default block size (the header documents
"default 64kB"). -/
def kDefaultBlockSize : Nat := 65536
/-- Modelled from the spec: default granularity (the header documents
"default 64"). -/
def kDefaultGranularity : Nat := 64
/-- Modelled from the spec: the page size used to validate the configured
block size ("must be equal or greater to page size"). -/
def kPageSize : Nat := 4096
/-- Modelled from the spec: the default fill pattern used when
`kOptionCustomFillPattern` is not set. -/
def kDefaultFillPattern : Nat := 0xCCCCCCCC

/-- Power-of-two test on natural numbers, as the bit-trick the C++ code
family uses: nonzero and `n & (n-1) == 0`. -/
def isPow2 (n : Nat) : Bool := n != 0 && (n &&& (n - 1)) == 0

/-- Modelled from the spec: validation of the configured block size.
The header remarks "Block size must be equal or greater to page size and
must be power of 2. If the input is not valid then the default block size
will be used instead." -/
def fixedBlockSize (bs : Nat) : Nat :=
  if isPow2 bs && decide (kPageSize ≤ bs) then bs else kDefaultBlockSize

/-- Modelled from the spec: validation of the configured granularity
(a power of two per the data model; zero/invalid falls back to the
default of 64 bytes). -/
def fixedGranularity (g : Nat) : Nat :=
  if isPow2 g then g else kDefaultGranularity

/-- Modelled from the spec: the `Impl` built by the `JitAllocator`
constructor from `CreateParams` — invalid block size / granularity fall
back to the documented defaults, and the fill pattern is taken from the
parameters only under `kOptionCustomFillPattern`. -/
def initImpl (params : CreateParams) : Impl :=
  { options := params.options
    blockSize := fixedBlockSize params.blockSize
    granularity := fixedGranularity params.granularity
    fillPattern := if params.options &&& kOptionCustomFillPattern != 0
                   then params.fillPattern else kDefaultFillPattern }

/-- Modelled from the spec: one block — an OS-backed region of
`slotCount` granularity-sized slots starting at `rxAddr` (read+execute
view) with a writable view at `rwAddr`, together with its used/stop
bitmap pair.  The bitmaps are total functions on slot indices; slots at
or beyond `slotCount` are kept `false`. -/
structure Block where
  rxAddr : Nat
  rwAddr : Nat
  slotCount : Nat
  used : Nat → Bool
  stop : Nat → Bool

/-- Modelled from the spec: one pool — blocks of a single granularity
plus the round-robin cursor telling where the next scan resumes. -/
structure Pool where
  granularity : Nat
  blocks : List Block
  cursor : Nat

/-- Modelled from the spec: the whole allocator state — the immutable
configuration, the pools, a fresh-address frontier standing for the OS
collaborator's guarantee that newly mapped regions are disjoint from all
regions still mapped, and a fuel bound standing for the OS collaborator's
ability to fail a reservation (out-of-memory). -/
structure JitState where
  impl : Impl
  pools : List Pool
  nextAddr : Nat
  osFuel : Nat

/-- Accessor `options()` from the header: `return _impl->options`. -/
def options (st : JitState) : Nat := st.impl.options
/-- Accessor `hasOption()` from the header:
`return (_impl->options & option) != 0`. -/
def hasOption (st : JitState) (opt : Nat) : Bool := st.impl.options &&& opt != 0
/-- Accessor `blockSize()` from the header: `return _impl->blockSize`. -/
def blockSize (st : JitState) : Nat := st.impl.blockSize
/-- Accessor `granularity()` from the header: `return _impl->granularity`. -/
def granularity (st : JitState) : Nat := st.impl.granularity
/-- Accessor `fillPattern()` from the header: `return _impl->fillPattern`. -/
def fillPattern (st : JitState) : Nat := st.impl.fillPattern

/-- Predicate `isInitialized()` embedded from the header source, line 156:
`return _impl->blockSize == 0;`. -/
def isInitialized (st : JitState) : Bool := st.impl.blockSize == 0

/-- Modelled from the spec: number of pools — one pool by default, three
pools of increasing granularity under `kOptionUseMultiplePools`. -/
def poolCountOf (impl : Impl) : Nat := if multiplePoolsOpt impl then 3 else 1

/-- Modelled from the spec: the allocator constructor.  Pools are created
with granularities `g`, `2g`, `4g` (the header documents 64/128/256 for
the default granularity).  The spec creates pools lazily; creating them
up front with empty block lists is observationally identical. -/
def initState (params : CreateParams) (osFuel : Nat) : JitState :=
  let impl := initImpl params
  { impl := impl
    pools := (List.range (poolCountOf impl)).map (fun i =>
      { granularity := impl.granularity <<< i, blocks := [], cursor := 0 })
    nextAddr := 0
    osFuel := osFuel }

/-- Round a byte size up to a whole number of granularity-sized slots. -/
def roundUpSlots (size g : Nat) : Nat := (size + g - 1) / g

/-- Set all bits of a run `[s, s+c)` to `b`. -/
def setRun (f : Nat → Bool) (s c : Nat) (b : Bool) : Nat → Bool :=
  fun i => if s ≤ i ∧ i < s + c then b else f i

/-- Set a single bit to `b`. -/
def setBit (f : Nat → Bool) (i : Nat) (b : Bool) : Nat → Bool :=
  fun j => if j = i then b else f j

/-- Count the true bits among indices `[0, n)`. -/
def countTrue (f : Nat → Bool) : Nat → Nat
  | 0 => 0
  | n + 1 => countTrue f n + (if f n then 1 else 0)

/-- Modelled from the spec (4.1 `releaseSpan`): reading forward from a
slot until the stop bit is found determines the span length; the scan is
fuel-bounded by the remaining slots of the block. -/
def firstStopLen (stop : Nat → Bool) (s : Nat) : Nat → Nat
  | 0 => 0
  | fuel + 1 => if stop s then 1 else 1 + firstStopLen stop (s + 1) fuel

/-- Length in slots of the span starting at slot `s` of block `b`,
determined by the stop bitmap. -/
def spanLen (b : Block) (s : Nat) : Nat := firstStopLen b.stop s (b.slotCount - s)

/-- All bits of the run `[s, s+c)` are clear. -/
def allFreeRun (used : Nat → Bool) (s : Nat) : Nat → Bool
  | 0 => true
  | c + 1 => allFreeRun used s c && !used (s + c)

/-- All bits of the run `[s, s+c)` are set. -/
def allUsedRun (used : Nat → Bool) (s : Nat) : Nat → Bool
  | 0 => true
  | c + 1 => allUsedRun used s c && used (s + c)

/-- Modelled from the spec (4.1 `findFreeSpan`): first-fit scan for a run
of `c` consecutive clear bits, by ascending slot index. -/
def findFreeSpanAux (used : Nat → Bool) (c : Nat) : Nat → Nat → Option Nat
  | _, 0 => none
  | s, fuel + 1 => if allFreeRun used s c then some s else findFreeSpanAux used c (s + 1) fuel

/-- Modelled from the spec (4.1 `findFreeSpan`): returns the first slot
index starting a free run of `c` slots, or `none`. -/
def findFreeSpan (used : Nat → Bool) (slotCount c : Nat) : Option Nat :=
  findFreeSpanAux used c 0 (slotCount + 1 - c)

/-- Modelled from the spec (4.1 `markSpan`): set the used bits across the
span and the stop bit at its last slot.  The caller guarantees the span
is entirely free. -/
def blockAlloc (b : Block) (s c : Nat) : Block :=
  { b with used := setRun b.used s c true, stop := setBit b.stop (s + c - 1) true }

/-- Modelled from the spec (4.1 `releaseSpan`): clear all used and stop
bits of the span `[s, s+len)`. -/
def blockFree (b : Block) (s len : Nat) : Block :=
  { b with used := setRun b.used s len false, stop := setRun b.stop s len false }

/-- Modelled from the spec (4.1 `shrinkSpan`): clear the freed tail bits
and move the stop bit to the new, shorter length. -/
def blockShrink (b : Block) (s oldLen newLen : Nat) : Block :=
  { b with used := setRun b.used (s + newLen) (oldLen - newLen) false
           stop := setBit (setRun b.stop (s + newLen) (oldLen - newLen) false) (s + newLen - 1) true }

/-- Number of used slots of a block. -/
def blockUsedCount (b : Block) : Nat := countTrue b.used b.slotCount

/-- A block is empty when it has no used slot. -/
def blockEmpty (b : Block) : Bool := blockUsedCount b == 0

/-- Range check `containsAddress` of a block (4.2), with the byte size
derived from the slot count and the pool granularity. -/
def blockContains (g : Nat) (b : Block) (a : Nat) : Bool :=
  decide (b.rxAddr ≤ a ∧ a < b.rxAddr + b.slotCount * g)

/-- Is there an empty block in the list? -/
def hasEmptyBlock : List Block → Bool
  | [] => false
  | b :: rest => blockEmpty b || hasEmptyBlock rest

/-- Is there an empty block at an index other than `skip`? -/
def hasEmptyExcept : List Block → Nat → Bool
  | [], _ => false
  | _ :: rest, 0 => hasEmptyBlock rest
  | b :: rest, k + 1 => blockEmpty b || hasEmptyExcept rest k

/-- The round-robin visiting order of block indices, starting at the
cursor (4.3: "rotates through blocks starting at the cursor"). -/
def scanOrder (n cursor : Nat) : List Nat :=
  (List.range n).map (fun i => (cursor + i) % n)

/-- Scan the given block indices for the first block offering a free run
of `c` slots; returns the block index and the starting slot. -/
def poolScanAux (blocks : List Block) (c : Nat) : List Nat → Option (Nat × Nat)
  | [] => none
  | i :: rest =>
    match blocks[i]? with
    | none => poolScanAux blocks c rest
    | some b =>
      match findFreeSpan b.used b.slotCount c with
      | some s => some (i, s)
      | none => poolScanAux blocks c rest

/-- Modelled from the spec (4.3 `allocate`): round-robin scan of the
pool's blocks for a fitting free span. -/
def poolFindSpan (p : Pool) (c : Nat) : Option (Nat × Nat) :=
  poolScanAux p.blocks c (scanOrder p.blocks.length p.cursor)

/-- Modelled from the spec (4.4): pool selection by size class when
`kOptionUseMultiplePools` is enabled (small/medium/large tiers at
granularities `g`, `2g`, `4g`; the exact boundaries are documented as
tunable, not load-bearing). -/
def poolIdFor (impl : Impl) (size : Nat) : Nat :=
  if !multiplePoolsOpt impl then 0
  else if 4 * impl.granularity ≤ size then 2
  else if 2 * impl.granularity ≤ size then 1
  else 0

/-- A freshly mapped, entirely free block. -/
def newBlock (rx rw slotCount : Nat) : Block :=
  { rxAddr := rx, rwAddr := rw, slotCount := slotCount
    used := fun _ => false, stop := fun _ => false }

/-- Modelled from the spec (4.4 `allocate`): fails with invalid-argument
on size zero; selects the pool for the size; scans the pool's blocks for
a free span; on exhaustion requests a new block of at least
`max(blockSize, roundedSize)` from the OS collaborator (which may fail
with out-of-memory); returns the executable and writable addresses of
the span.  Every failing branch returns the state unchanged. -/
def alloc (st : JitState) (size : Nat) : (Except AsmError (Nat × Nat)) × JitState :=
  if size = 0 then (.error .invalidArgument, st)
  else
    let pid := poolIdFor st.impl size
    match st.pools[pid]? with
    | none => (.error .invalidArgument, st)
    | some p =>
      let g := p.granularity
      let c := roundUpSlots size g
      match poolFindSpan p c with
      | some (i, s) =>
        match p.blocks[i]? with
        | none => (.error .invalidArgument, st)
        | some b =>
          (.ok (b.rxAddr + s * g, b.rwAddr + s * g),
           { st with pools := st.pools.set pid
                       ({ p with blocks := p.blocks.set i (blockAlloc b s c), cursor := i + 1 }) })
      | none =>
        if st.osFuel = 0 then (.error .outOfMemory, st)
        else
          let sc := max (roundUpSlots st.impl.blockSize g) c
          let bytes := sc * g
          let rx := st.nextAddr
          let rw := rx + (if dualMappingOpt st.impl then bytes else 0)
          let b := blockAlloc (newBlock rx rw sc) 0 c
          (.ok (rx, rw),
           { st with pools := st.pools.set pid ({ p with blocks := p.blocks ++ [b] })
                     nextAddr := rx + 2 * bytes
                     osFuel := st.osFuel - 1 })

/-- Search the blocks of one pool for the one containing an address,
returning its index and the block. -/
def blockFindAux (g a : Nat) : List Block → Nat → Option (Nat × Block)
  | [], _ => none
  | b :: rest, bi =>
    if blockContains g b a then some (bi, b) else blockFindAux g a rest (bi + 1)

/-- Walk the pools looking for the block owning an address. -/
def findOwnerAux (a : Nat) : List Pool → Nat → Option (Nat × Pool × Nat × Block)
  | [], _ => none
  | p :: rest, pi =>
    match blockFindAux p.granularity a p.blocks 0 with
    | some (bi, b) => some (pi, p, bi, b)
    | none => findOwnerAux a rest (pi + 1)

/-- Modelled from the spec (4.4, design note 9): the address-to-block
lookup structure, mapping an address to the pool index, pool, block
index and block owning it.  Any correct range-lookup structure satisfies
the spec; a linear walk is functionally equivalent to the source's
red-black tree. -/
def findOwner (st : JitState) (a : Nat) : Option (Nat × Pool × Nat × Block) :=
  findOwnerAux a st.pools 0

/-- Modelled from the spec (4.4 `release`, 4.3 `release`, 4.2
`slotIndexOf`): look up the owning block (invalid-pointer if none);
convert the address to a slot (invalid-pointer if not slot-aligned);
fail with invalid-pointer if the slot's used bit is clear
(double-release); otherwise clear the span found via the stop bit.  If
the block becomes empty it is destroyed under `kOptionImmediateRelease`,
or when the pool already retains another empty block (at most one empty
block is kept per pool).  Every failing branch returns the state
unchanged. -/
def release (st : JitState) (a : Nat) : (Except AsmError Unit) × JitState :=
  match findOwner st a with
  | none => (.error .invalidPointer, st)
  | some (pi, p, bi, b) =>
    let g := p.granularity
    let off := a - b.rxAddr
    if off % g ≠ 0 then (.error .invalidPointer, st)
    else
      let s := off / g
      if b.used s = false then (.error .invalidPointer, st)
      else
        let len := spanLen b s
        let b' := blockFree b s len
        let destroy := blockEmpty b' && (immediateReleaseOpt st.impl || hasEmptyExcept p.blocks bi)
        let p' := if destroy then { p with blocks := p.blocks.eraseIdx bi }
                  else { p with blocks := p.blocks.set bi b' }
        (.ok (), { st with pools := st.pools.set pi p' })

/-- Modelled from the spec (4.4 `shrink`, 4.1 `shrinkSpan`): fails with
invalid-argument if the new size is zero; looks up the owning block
(invalid-pointer if none, or if the address is not slot-aligned, or if
the slot is not used); fails with invalid-argument if the new size
exceeds the current span; re-validates the run (a violation is an
internal-consistency error); then truncates the span in place.  Every
failing branch returns the state unchanged. -/
def shrink (st : JitState) (a newSize : Nat) : (Except AsmError Unit) × JitState :=
  if newSize = 0 then (.error .invalidArgument, st)
  else
    match findOwner st a with
    | none => (.error .invalidPointer, st)
    | some (pi, p, bi, b) =>
      let g := p.granularity
      let off := a - b.rxAddr
      if off % g ≠ 0 then (.error .invalidPointer, st)
      else
        let s := off / g
        if b.used s = false then (.error .invalidPointer, st)
        else
          let len := spanLen b s
          let c' := roundUpSlots newSize g
          if len < c' then (.error .invalidArgument, st)
          else if allUsedRun b.used s len = false then (.error .internalConsistency, st)
          else
            let b' := blockShrink b s len c'
            (.ok (), { st with pools := st.pools.set pi ({ p with blocks := p.blocks.set bi b' }) })

/-- One public data-mutating call of the façade. -/
inductive Op where
  | alloc (size : Nat)
  | release (addr : Nat)
  | shrink (addr : Nat) (newSize : Nat)

/-- The state transition of one call (the error results leave the state
unchanged by construction). -/
def step (st : JitState) (op : Op) : JitState :=
  match op with
  | .alloc n => (alloc st n).2
  | .release a => (release st a).2
  | .shrink a n => (shrink st a n).2

/-- Run a sequence of calls. -/
def run (st : JitState) (ops : List Op) : JitState := ops.foldl step st

/-- Sum of used-slot counts over a block list. -/
def sumBlocksUsed : List Block → Nat
  | [] => 0
  | b :: rest => blockUsedCount b + sumBlocksUsed rest

/-- Sum of used-slot counts over the pools. -/
def sumPoolsUsed : List Pool → Nat
  | [] => 0
  | p :: rest => sumBlocksUsed p.blocks + sumPoolsUsed rest

/-- Aggregate used-slot count of the allocator. -/
def usedSlots (st : JitState) : Nat := sumPoolsUsed st.pools

/-- Free-slot count of one block. -/
def blockFreeCount (b : Block) : Nat := b.slotCount - blockUsedCount b

/-- Sum of free-slot counts over a block list. -/
def sumBlocksFree : List Block → Nat
  | [] => 0
  | b :: rest => blockFreeCount b + sumBlocksFree rest

/-- Sum of free-slot counts over the pools. -/
def sumPoolsFree : List Pool → Nat
  | [] => 0
  | p :: rest => sumBlocksFree p.blocks + sumPoolsFree rest

/-- Aggregate free-slot count of the allocator (spec invariant (c): the
pool aggregates equal the sums of the per-block free-slot counts). -/
def freeSlots (st : JitState) : Nat := sumPoolsFree st.pools

/-- Ghost record for trace-level statements: the allocator state, the
list of live allocations `(executable address, requested size)` as
returned by `alloc` and not yet released, and a properness flag that
turns false as soon as a successful `release`/`shrink` targets an
address that is not the executable address of a live allocation. -/
structure Ghost where
  st : JitState
  live : List (Nat × Nat)
  ok : Bool

/-- Ghost-instrumented transition: tracks the live-allocation list along
the state transition. -/
def stepG (g : Ghost) (op : Op) : Ghost :=
  match op with
  | .alloc n =>
    match alloc g.st n with
    | (.ok (rx, _), st') => { st := st', live := (rx, n) :: g.live, ok := g.ok }
    | (.error _, st') => { g with st := st' }
  | .release a =>
    match release g.st a with
    | (.ok _, st') =>
      { st := st'
        live := g.live.filter (fun pr => pr.1 != a)
        ok := g.ok && g.live.any (fun pr => pr.1 == a) }
    | (.error _, st') => { g with st := st' }
  | .shrink a n =>
    match shrink g.st a n with
    | (.ok _, st') =>
      { st := st'
        live := g.live.map (fun pr => if pr.1 == a then (a, n) else pr)
        ok := g.ok && g.live.any (fun pr => pr.1 == a) }
    | (.error _, st') => { g with st := st' }

/-- Run a sequence of calls with ghost instrumentation. -/
def runG (g : Ghost) (ops : List Op) : Ghost := ops.foldl stepG g

/-- Initial ghost: freshly constructed allocator, no live allocations. -/
def initGhost (params : CreateParams) (osFuel : Nat) : Ghost :=
  { st := initState params osFuel, live := [], ok := true }

/-- Two byte ranges `(start, length)` do not overlap. -/
def spansDisjoint (p q : Nat × Nat) : Prop := p.1 + p.2 ≤ q.1 ∨ q.1 + q.2 ≤ p.1

instance : DecidablePred (fun pq : (Nat × Nat) × Nat × Nat => spansDisjoint pq.1 pq.2) :=
  fun _ => by unfold spansDisjoint; infer_instance

instance (p q : Nat × Nat) : Decidable (spansDisjoint p q) := by
  unfold spansDisjoint; infer_instance

/-- Statistics structure embedded from the header: four `size_t`
counters.  `size_t` values are modelled as naturals below `2 ^ 64`. -/
structure Statistics where
  blockCount : Nat
  usedSize : Nat
  reservedSize : Nat
  overheadSize : Nat
deriving DecidableEq

/-- Bit width of `size_t` in the modelled build (a 64-bit target). -/
def sizeTBits : Nat := 64

/-- Accessor `unusedSize()` embedded from the header, line 219:
`return _reservedSize - _usedSize;` — an unguarded `size_t` subtraction,
which wraps modulo `2 ^ 64`. -/
def Statistics.unusedSize (st : Statistics) : Nat :=
  (st.reservedSize + (2 ^ sizeTBits - st.usedSize % 2 ^ sizeTBits)) % 2 ^ sizeTBits

end JitModel

namespace JitModel

/-! ### Atomicity of the failing branches -/

theorem alloc_cases (st : JitState) (n : Nat) :
    (∃ pr, (alloc st n).1 = .ok pr) ∨
    ((∃ e, (alloc st n).1 = .error e) ∧ (alloc st n).2 = st) := by
  unfold alloc
  dsimp only
  repeat' split
  all_goals first
    | exact Or.inl ⟨_, rfl⟩
    | exact Or.inr ⟨⟨_, rfl⟩, rfl⟩

theorem alloc_error_frame (st : JitState) (n : Nat) (e : AsmError)
    (h : (alloc st n).1 = .error e) : (alloc st n).2 = st := by
  rcases alloc_cases st n with ⟨pr, hok⟩ | ⟨_, hst⟩
  · rw [hok] at h; exact absurd h (by simp)
  · exact hst

theorem release_cases (st : JitState) (a : Nat) :
    ((release st a).1 = .ok ()) ∨
    ((∃ e, (release st a).1 = .error e) ∧ (release st a).2 = st) := by
  unfold release
  dsimp only
  repeat' split
  all_goals first
    | exact Or.inl rfl
    | exact Or.inr ⟨⟨_, rfl⟩, rfl⟩

theorem release_error_frame (st : JitState) (a : Nat) (e : AsmError)
    (h : (release st a).1 = .error e) : (release st a).2 = st := by
  rcases release_cases st a with hok | ⟨_, hst⟩
  · rw [hok] at h; exact absurd h (by simp)
  · exact hst

theorem shrink_cases (st : JitState) (a n : Nat) :
    ((shrink st a n).1 = .ok ()) ∨
    ((∃ e, (shrink st a n).1 = .error e) ∧ (shrink st a n).2 = st) := by
  unfold shrink
  dsimp only
  repeat' split
  all_goals first
    | exact Or.inl rfl
    | exact Or.inr ⟨⟨_, rfl⟩, rfl⟩

theorem shrink_error_frame (st : JitState) (a n : Nat) (e : AsmError)
    (h : (shrink st a n).1 = .error e) : (shrink st a n).2 = st := by
  rcases shrink_cases st a n with hok | ⟨_, hst⟩
  · rw [hok] at h; exact absurd h (by simp)
  · exact hst

end JitModel

namespace JitModel

/-! ### Configuration immutability -/

theorem alloc_impl_eq (st : JitState) (n : Nat) : ((alloc st n).2).impl = st.impl := by
  unfold alloc
  dsimp only
  repeat' split
  all_goals rfl

theorem release_impl_eq (st : JitState) (a : Nat) : ((release st a).2).impl = st.impl := by
  unfold release
  dsimp only
  repeat' split
  all_goals rfl

theorem shrink_impl_eq (st : JitState) (a n : Nat) : ((shrink st a n).2).impl = st.impl := by
  unfold shrink
  dsimp only
  repeat' split
  all_goals rfl

theorem step_impl_eq (st : JitState) (op : Op) : (step st op).impl = st.impl := by
  cases op with
  | alloc n => exact alloc_impl_eq st n
  | release a => exact release_impl_eq st a
  | shrink a n => exact shrink_impl_eq st a n

theorem run_impl_eq (ops : List Op) (st : JitState) : (run st ops).impl = st.impl := by
  induction ops generalizing st with
  | nil => rfl
  | cons op rest ih => exact (ih (step st op)).trans (step_impl_eq st op)

/-! ### Claim theorems for the easy claims -/

/-- C3: for every allocator state and size, `alloc` either succeeds
returning an address pair or fails with a specific error kind and leaves
the allocator state unchanged (atomicity on error). -/
theorem alloc_atomicity_on_error (st : JitState) (n : Nat) :
    (∃ pr, (alloc st n).1 = .ok pr) ∨
    ((∃ e, (alloc st n).1 = .error e) ∧ (alloc st n).2 = st) :=
  alloc_cases st n

/-- C4: allocating zero bytes fails with invalid-argument, and shrinking
any allocation to zero bytes fails with invalid-argument; in both cases
the allocator state is unchanged. -/
theorem alloc_zero_and_shrink_zero_invalid (st : JitState) (a : Nat) :
    alloc st 0 = (.error .invalidArgument, st) ∧
    shrink st a 0 = (.error .invalidArgument, st) :=
  ⟨rfl, rfl⟩

/-- C9: `isInitialized()` returns true exactly when `blockSize()` is zero,
i.e. exactly in the state the `Impl` documentation calls "not
initialized" (the function's body is `return _impl->blockSize == 0`). -/
theorem isInitialized_iff_blockSize_zero (st : JitState) :
    isInitialized st = true ↔ blockSize st = 0 := by
  simp [isInitialized, blockSize]

/-- C10: for every `Statistics` value with `size_t`-ranged fields,
`usedSize() + unusedSize()` equals `reservedSize()` modulo `2 ^ 64`, and
`unusedSize()` equals the mathematical difference
`reservedSize() - usedSize()` exactly when `usedSize() ≤ reservedSize()`,
wrapping around otherwise. -/
theorem statistics_unused_plus_used (st : Statistics)
    (h1 : st.usedSize < 2 ^ sizeTBits) (h2 : st.reservedSize < 2 ^ sizeTBits) :
    (st.usedSize + st.unusedSize) % 2 ^ sizeTBits = st.reservedSize % 2 ^ sizeTBits ∧
    ((st.unusedSize : ℤ) = (st.reservedSize : ℤ) - (st.usedSize : ℤ) ↔
      st.usedSize ≤ st.reservedSize) := by
  unfold Statistics.unusedSize sizeTBits at *
  norm_num at *
  constructor
  · omega
  · constructor
    · intro h
      omega
    · intro h
      omega

/-- Sample statistics value used by the C10 witness. -/
def statSample : Statistics :=
  { blockCount := 1, usedSize := 100, reservedSize := 4096, overheadSize := 16 }

/-- Witness for C10 at a concrete statistics value. -/
theorem statistics_unused_plus_used_witness :
    (statSample.usedSize + statSample.unusedSize) % 2 ^ sizeTBits
      = statSample.reservedSize % 2 ^ sizeTBits ∧
    ((statSample.unusedSize : ℤ)
        = (statSample.reservedSize : ℤ) - (statSample.usedSize : ℤ) ↔
      statSample.usedSize ≤ statSample.reservedSize) :=
  statistics_unused_plus_used statSample (by norm_num [statSample, sizeTBits])
    (by norm_num [statSample, sizeTBits])

/-- C8: invalid `blockSize` / `granularity` inputs fall back to the
documented defaults (64KB block size, 64-byte granularity), and the
configuration observed through `options()` / `blockSize()` /
`granularity()` / `fillPattern()` never changes across any sequence of
`alloc` / `release` / `shrink` calls after construction. -/
theorem config_defaults_and_immutable (params : CreateParams) (fuel : Nat) (ops : List Op) :
    options (run (initState params fuel) ops) = params.options ∧
    blockSize (run (initState params fuel) ops) =
      (if isPow2 params.blockSize && decide (kPageSize ≤ params.blockSize)
       then params.blockSize else kDefaultBlockSize) ∧
    granularity (run (initState params fuel) ops) =
      (if isPow2 params.granularity then params.granularity else kDefaultGranularity) ∧
    fillPattern (run (initState params fuel) ops) =
      (if params.options &&& kOptionCustomFillPattern != 0
       then params.fillPattern else kDefaultFillPattern) := by
  have h := run_impl_eq ops (initState params fuel)
  refine ⟨?_, ?_, ?_, ?_⟩ <;>
    simp only [options, blockSize, granularity, fillPattern, h] <;> rfl

end JitModel

namespace JitModel

/-! ### Bitmap lemmas -/

theorem setRun_mem (f : Nat → Bool) (s c : Nat) (b : Bool) (i : Nat)
    (h1 : s ≤ i) (h2 : i < s + c) : setRun f s c b i = b := by
  simp [setRun, h1, h2]

theorem setRun_notmem (f : Nat → Bool) (s c : Nat) (b : Bool) (i : Nat)
    (h : i < s ∨ s + c ≤ i) : setRun f s c b i = f i := by
  rcases h with h | h <;> simp [setRun] <;> omega

theorem setBit_self (f : Nat → Bool) (i : Nat) (b : Bool) : setBit f i b i = b := by
  simp [setBit]

theorem setBit_other (f : Nat → Bool) (i : Nat) (b : Bool) (j : Nat) (h : j ≠ i) :
    setBit f i b j = f j := by
  simp [setBit, h]

theorem countTrue_congr (f g : Nat → Bool) (n : Nat) (h : ∀ i, i < n → f i = g i) :
    countTrue f n = countTrue g n := by
  induction n with
  | zero => rfl
  | succ m ih =>
    simp only [countTrue]
    rw [ih (fun i hi => h i (Nat.lt_succ_of_lt hi)), h m (Nat.lt_succ_self m)]

theorem countTrue_le (f : Nat → Bool) (n : Nat) : countTrue f n ≤ n := by
  induction n with
  | zero => exact Nat.le_refl 0
  | succ m ih =>
    simp only [countTrue]
    split <;> omega

theorem countTrue_setBit_true (f : Nat → Bool) (i n : Nat)
    (hf : f i = false) (hi : i < n) :
    countTrue (setBit f i true) n = countTrue f n + 1 := by
  induction n with
  | zero => omega
  | succ m ih =>
    simp only [countTrue]
    by_cases hm : i = m
    · have h1 : countTrue (setBit f i true) m = countTrue f m :=
        countTrue_congr _ f m (fun j hj => setBit_other f i true j (by omega))
      have h2 : setBit f i true m = true := by
        subst hm; exact setBit_self f i true
      have h3 : f m = false := hm ▸ hf
      rw [h1, h2, h3]
      simp
    · have h2 : setBit f i true m = f m := setBit_other f i true m (by omega)
      have h3 := ih (by omega)
      rw [h2, h3]
      by_cases hfm : f m = true <;> simp [hfm] <;> omega

theorem countTrue_setBit_false (f : Nat → Bool) (i n : Nat)
    (hf : f i = true) (hi : i < n) :
    countTrue (setBit f i false) n + 1 = countTrue f n := by
  induction n with
  | zero => omega
  | succ m ih =>
    simp only [countTrue]
    by_cases hm : i = m
    · have h1 : countTrue (setBit f i false) m = countTrue f m :=
        countTrue_congr _ f m (fun j hj => setBit_other f i false j (by omega))
      have h2 : setBit f i false m = false := by
        subst hm; exact setBit_self f i false
      have h3 : f m = true := hm ▸ hf
      rw [h1, h2, h3]
      simp
    · have h2 : setBit f i false m = f m := setBit_other f i false m (by omega)
      have h3 := ih (by omega)
      rw [h2]
      by_cases hfm : f m = true <;> simp [hfm] <;> omega

theorem setRun_succ_pointwise (f : Nat → Bool) (s c : Nat) (b : Bool) (i : Nat) :
    setRun f s (c + 1) b i = setBit (setRun f s c b) (s + c) b i := by
  by_cases h1 : i = s + c
  · subst h1
    rw [setBit_self, setRun_mem f s (c + 1) b _ (Nat.le_add_right s c) (by omega)]
  · rw [setBit_other _ _ _ _ h1]
    by_cases h2 : s ≤ i ∧ i < s + c
    · rw [setRun_mem f s (c + 1) b i h2.1 (by omega), setRun_mem f s c b i h2.1 h2.2]
    · have h3 : i < s ∨ s + c ≤ i := by omega
      have h4 : i < s ∨ s + (c + 1) ≤ i := by omega
      rw [setRun_notmem f s (c + 1) b i h4, setRun_notmem f s c b i h3]

theorem setRun_zero (f : Nat → Bool) (s : Nat) (b : Bool) (i : Nat) :
    setRun f s 0 b i = f i := by
  apply setRun_notmem
  omega

theorem countTrue_setRun_true (f : Nat → Bool) (s c n : Nat)
    (hfree : ∀ j, j < c → f (s + j) = false) (hn : s + c ≤ n) :
    countTrue (setRun f s c true) n = countTrue f n + c := by
  induction c with
  | zero => exact countTrue_congr _ f n (fun i _ => setRun_zero f s true i)
  | succ m ih =>
    rw [countTrue_congr _ (setBit (setRun f s m true) (s + m) true) n
        (fun i _ => setRun_succ_pointwise f s m true i)]
    have hx : setRun f s m true (s + m) = false := by
      rw [setRun_notmem f s m true (s + m) (Or.inr (Nat.le_refl _))]
      exact hfree m (Nat.lt_succ_self m)
    have h1 := countTrue_setBit_true (setRun f s m true) (s + m) n hx (by omega)
    have h2 := ih (fun j hj => hfree j (by omega)) (by omega)
    omega

theorem countTrue_setRun_false (f : Nat → Bool) (s c n : Nat)
    (hused : ∀ j, j < c → f (s + j) = true) (hn : s + c ≤ n) :
    countTrue (setRun f s c false) n + c = countTrue f n := by
  induction c with
  | zero =>
    rw [Nat.add_zero]
    exact countTrue_congr _ f n (fun i _ => setRun_zero f s false i)
  | succ m ih =>
    rw [countTrue_congr _ (setBit (setRun f s m false) (s + m) false) n
        (fun i _ => setRun_succ_pointwise f s m false i)]
    have hx : setRun f s m false (s + m) = true := by
      rw [setRun_notmem f s m false (s + m) (Or.inr (Nat.le_refl _))]
      exact hused m (Nat.lt_succ_self m)
    have h1 := countTrue_setBit_false (setRun f s m false) (s + m) n hx (by omega)
    have h2 := ih (fun j hj => hused j (by omega)) (by omega)
    omega

theorem allFreeRun_iff (used : Nat → Bool) (s c : Nat) :
    allFreeRun used s c = true ↔ ∀ j, j < c → used (s + j) = false := by
  induction c with
  | zero => simp [allFreeRun]
  | succ m ih =>
    simp only [allFreeRun, Bool.and_eq_true, Bool.not_eq_true', ih]
    constructor
    · rintro ⟨h1, h2⟩ j hj
      rcases Nat.lt_succ_iff_lt_or_eq.mp hj with h | h
      · exact h1 j h
      · rw [h]; exact h2
    · intro h
      exact ⟨fun j hj => h j (Nat.lt_succ_of_lt hj), h m (Nat.lt_succ_self m)⟩

theorem allUsedRun_iff (used : Nat → Bool) (s c : Nat) :
    allUsedRun used s c = true ↔ ∀ j, j < c → used (s + j) = true := by
  induction c with
  | zero => simp [allUsedRun]
  | succ m ih =>
    simp only [allUsedRun, Bool.and_eq_true, ih]
    constructor
    · rintro ⟨h1, h2⟩ j hj
      rcases Nat.lt_succ_iff_lt_or_eq.mp hj with h | h
      · exact h1 j h
      · rw [h]; exact h2
    · intro h
      exact ⟨fun j hj => h j (Nat.lt_succ_of_lt hj), h m (Nat.lt_succ_self m)⟩

theorem firstStopLen_eq (stop : Nat → Bool) (s c fuel : Nat)
    (hno : ∀ j, j + 1 < c → stop (s + j) = false)
    (hyes : stop (s + c - 1) = true) (hc : 1 ≤ c) (hfuel : c ≤ fuel) :
    firstStopLen stop s fuel = c := by
  induction c generalizing s fuel with
  | zero => omega
  | succ m ih =>
    obtain ⟨k, rfl⟩ : ∃ k, fuel = k + 1 := ⟨fuel - 1, by omega⟩
    simp only [firstStopLen]
    by_cases hm : m = 0
    · subst hm
      simp only [Nat.add_sub_cancel] at hyes
      simpa [hyes] using rfl
    · have hs : stop s = false := by
        have := hno 0 (by omega)
        simpa using this
      rw [hs]
      simp only [Bool.false_eq_true, if_false]
      rw [ih (s + 1) k ?no ?yes (by omega) (by omega)]
      · omega
      case no =>
        intro j hj
        have h := hno (j + 1) (by omega)
        have e : s + (j + 1) = s + 1 + j := by omega
        rw [e] at h
        exact h
      case yes =>
        have e : s + 1 + m - 1 = s + (m + 1) - 1 := by omega
        rw [e, hyes]

end JitModel

namespace JitModel

/-! ### Scan and lookup lemmas -/

theorem roundUpSlots_pos (size g : Nat) (hs : 1 ≤ size) (hg : 1 ≤ g) :
    1 ≤ roundUpSlots size g := by
  unfold roundUpSlots
  have h1 : g ≤ size + g - 1 := by omega
  have := Nat.div_le_div_right (c := g) h1
  rw [Nat.div_self hg] at this
  omega

theorem roundUpSlots_le_mul (size g : Nat) (hg : 1 ≤ g) :
    size ≤ roundUpSlots size g * g := by
  unfold roundUpSlots
  rw [Nat.mul_comm]
  have h1 := Nat.div_add_mod (size + g - 1) g
  have h2 : (size + g - 1) % g < g := Nat.mod_lt _ (by omega)
  omega

theorem roundUpSlots_mono (k n g : Nat) (h : k ≤ n) :
    roundUpSlots k g ≤ roundUpSlots n g := by
  unfold roundUpSlots
  exact Nat.div_le_div_right (by omega)

theorem findFreeSpanAux_spec (used : Nat → Bool) (c s fuel s' : Nat)
    (h : findFreeSpanAux used c s fuel = some s') :
    s ≤ s' ∧ s' < s + fuel ∧ allFreeRun used s' c = true := by
  induction fuel generalizing s with
  | zero => exact absurd h (by simp [findFreeSpanAux])
  | succ k ih =>
    unfold findFreeSpanAux at h
    split at h
    · obtain rfl : s = s' := by simpa using h
      exact ⟨Nat.le_refl _, by omega, by assumption⟩
    · obtain ⟨h1, h2, h3⟩ := ih (s + 1) h
      exact ⟨by omega, by omega, h3⟩

theorem findFreeSpan_spec (used : Nat → Bool) (n c s : Nat)
    (h : findFreeSpan used n c = some s) :
    (∀ j, j < c → used (s + j) = false) ∧ s + c ≤ n := by
  unfold findFreeSpan at h
  obtain ⟨h1, h2, h3⟩ := findFreeSpanAux_spec used c 0 (n + 1 - c) s h
  refine ⟨(allFreeRun_iff used s c).mp h3, ?_⟩
  by_cases hc : c ≤ n
  · omega
  · exfalso
    have : n + 1 - c = 0 := by omega
    rw [this] at h2
    omega

theorem poolScanAux_spec (blocks : List Block) (c : Nat) (idxs : List Nat)
    (i s : Nat) (h : poolScanAux blocks c idxs = some (i, s)) :
    ∃ b, blocks[i]? = some b ∧ findFreeSpan b.used b.slotCount c = some s := by
  induction idxs with
  | nil => exact absurd h (by simp [poolScanAux])
  | cons j rest ih =>
    unfold poolScanAux at h
    cases hb : blocks[j]? with
    | none =>
      rw [hb] at h
      exact ih h
    | some b =>
      rw [hb] at h
      dsimp only at h
      cases hs : findFreeSpan b.used b.slotCount c with
      | none =>
        rw [hs] at h
        exact ih h
      | some s0 =>
        rw [hs] at h
        dsimp only at h
        simp only [Option.some_inj, Prod.mk.injEq] at h
        obtain ⟨rfl, rfl⟩ := h
        exact ⟨b, hb, hs⟩

theorem blockFindAux_spec (g a : Nat) (blocks : List Block) (k bi : Nat) (b : Block)
    (h : blockFindAux g a blocks k = some (bi, b)) :
    ∃ j, bi = k + j ∧ blocks[j]? = some b ∧ blockContains g b a = true := by
  induction blocks generalizing k with
  | nil => exact absurd h (by simp [blockFindAux])
  | cons hd rest ih =>
    unfold blockFindAux at h
    split at h
    · obtain ⟨rfl, rfl⟩ : k = bi ∧ hd = b := by
        constructor <;> simp_all
      exact ⟨0, by omega, by simp, by assumption⟩
    · obtain ⟨j, rfl, h2, h3⟩ := ih (k + 1) h
      exact ⟨j + 1, by omega, by simpa using h2, h3⟩

theorem blockFindAux_isSome (g a : Nat) (blocks : List Block) (k j : Nat) (b : Block)
    (hj : blocks[j]? = some b) (hc : blockContains g b a = true) :
    (blockFindAux g a blocks k).isSome := by
  induction blocks generalizing k j with
  | nil => simp at hj
  | cons hd rest ih =>
    unfold blockFindAux
    split
    · simp
    · cases j with
      | zero =>
        simp only [List.getElem?_cons_zero, Option.some_inj] at hj
        subst hj
        simp_all
      | succ m =>
        simp only [List.getElem?_cons_succ] at hj
        exact ih (k + 1) m hj

theorem findOwnerAux_spec (a : Nat) (pools : List Pool) (k pi : Nat) (p : Pool)
    (bi : Nat) (b : Block)
    (h : findOwnerAux a pools k = some (pi, p, bi, b)) :
    ∃ j, pi = k + j ∧ pools[j]? = some p ∧ p.blocks[bi]? = some b ∧
      blockContains p.granularity b a = true := by
  induction pools generalizing k with
  | nil => exact absurd h (by simp [findOwnerAux])
  | cons hd rest ih =>
    unfold findOwnerAux at h
    cases hfb : blockFindAux hd.granularity a hd.blocks 0 with
    | some pr =>
      obtain ⟨bi0, b0⟩ := pr
      rw [hfb] at h
      dsimp only at h
      simp only [Option.some_inj, Prod.mk.injEq] at h
      obtain ⟨rfl, rfl, rfl, rfl⟩ := h
      obtain ⟨j, hj, h2, h3⟩ := blockFindAux_spec hd.granularity a hd.blocks 0 bi0 b0 hfb
      refine ⟨0, by omega, by simp, ?_, h3⟩
      rw [hj]
      simpa using h2
    | none =>
      rw [hfb] at h
      obtain ⟨j, rfl, h2, h3, h4⟩ := ih (k + 1) h
      exact ⟨j + 1, by omega, by simpa using h2, h3, h4⟩

theorem findOwnerAux_isSome (a : Nat) (pools : List Pool) (k j : Nat) (p : Pool)
    (bi : Nat) (b : Block) (hj : pools[j]? = some p) (hb : p.blocks[bi]? = some b)
    (hc : blockContains p.granularity b a = true) :
    (findOwnerAux a pools k).isSome := by
  induction pools generalizing k j with
  | nil => simp at hj
  | cons hd rest ih =>
    unfold findOwnerAux
    split
    · simp
    · rename_i heq
      cases j with
      | zero =>
        simp only [List.getElem?_cons_zero, Option.some_inj] at hj
        subst hj
        have := blockFindAux_isSome hd.granularity a hd.blocks 0 bi b hb hc
        rw [heq] at this
        simp at this
      | succ m =>
        simp only [List.getElem?_cons_succ] at hj
        exact ih (k + 1) m hj

theorem findOwner_spec (st : JitState) (a pi : Nat) (p : Pool) (bi : Nat) (b : Block)
    (h : findOwner st a = some (pi, p, bi, b)) :
    st.pools[pi]? = some p ∧ p.blocks[bi]? = some b ∧
      blockContains p.granularity b a = true := by
  obtain ⟨j, hj, h2, h3, h4⟩ := findOwnerAux_spec a st.pools 0 pi p bi b h
  obtain rfl : pi = j := by omega
  exact ⟨h2, h3, h4⟩

theorem findOwner_isSome (st : JitState) (a j : Nat) (p : Pool) (bi : Nat) (b : Block)
    (hj : st.pools[j]? = some p) (hb : p.blocks[bi]? = some b)
    (hc : blockContains p.granularity b a = true) :
    (findOwner st a).isSome :=
  findOwnerAux_isSome a st.pools 0 j p bi b hj hb hc

theorem getElem?_eraseIdx (l : List Block) (i j : Nat) :
    (l.eraseIdx i)[j]? = if j < i then l[j]? else l[j + 1]? := by
  induction l generalizing i j with
  | nil => simp [List.eraseIdx]
  | cons hd rest ih =>
    cases i with
    | zero =>
      simp only [List.eraseIdx]
      split
      · omega
      · simp
    | succ m =>
      cases j with
      | zero => simp [List.eraseIdx]
      | succ n =>
        simp only [List.eraseIdx, List.getElem?_cons_succ]
        rw [ih m n]
        split <;> split <;> first | rfl | omega

end JitModel

namespace JitModel

/-! ### Well-formedness invariants -/

/-- Well-formedness of one block within a pool of granularity `g`: at
least one slot, the address range below the fresh-address frontier, the
writable view at the dual-mapping offset, bitmaps clear beyond the slot
count, and stop bits only on used slots. -/
structure BlockWF (dual : Bool) (g nextAddr : Nat) (b : Block) : Prop where
  sc : 1 ≤ b.slotCount
  bend : b.rxAddr + b.slotCount * g ≤ nextAddr
  rwView : b.rwAddr = b.rxAddr + (if dual then b.slotCount * g else 0)
  usedBound : ∀ i, b.slotCount ≤ i → b.used i = false
  stopBound : ∀ i, b.slotCount ≤ i → b.stop i = false
  stopUsed : ∀ i, b.stop i = true → b.used i = true

/-- Well-formedness of the allocator state: positive pool granularities,
well-formed blocks, and pairwise disjoint block address ranges (spec
invariant (d): no two blocks' address ranges overlap). -/
structure StateWF (st : JitState) : Prop where
  poolG : ∀ (pi : Nat) (p : Pool), st.pools[pi]? = some p → 0 < p.granularity
  blockWF : ∀ (pi : Nat) (p : Pool) (bi : Nat) (b : Block),
    st.pools[pi]? = some p → p.blocks[bi]? = some b →
    BlockWF (dualMappingOpt st.impl) p.granularity st.nextAddr b
  disj : ∀ (pi1 : Nat) (p1 : Pool) (bi1 : Nat) (b1 : Block)
    (pi2 : Nat) (p2 : Pool) (bi2 : Nat) (b2 : Block),
    st.pools[pi1]? = some p1 → p1.blocks[bi1]? = some b1 →
    st.pools[pi2]? = some p2 → p2.blocks[bi2]? = some b2 →
    ¬(pi1 = pi2 ∧ bi1 = bi2) →
    b1.rxAddr + b1.slotCount * p1.granularity ≤ b2.rxAddr ∨
    b2.rxAddr + b2.slotCount * p2.granularity ≤ b1.rxAddr

/-- Facts about one allocated span of `c` slots starting at slot `s` of a
block: nonempty, in bounds, all slots used, the stop bit exactly at the
last slot, and the slot before the span (if any) not continuing into it. -/
structure SpanData (b : Block) (s c : Nat) : Prop where
  hc : 1 ≤ c
  hb : s + c ≤ b.slotCount
  hused : ∀ j, j < c → b.used (s + j) = true
  hstop : b.stop (s + c - 1) = true
  hnostop : ∀ j, j + 1 < c → b.stop (s + j) = false
  hstart : s = 0 ∨ b.used (s - 1) = false ∨ b.stop (s - 1) = true

/-- A live span of `roundUpSlots n g` slots whose executable address is
`a`, somewhere in the allocator state. -/
def SpanAt (st : JitState) (a n : Nat) : Prop :=
  ∃ (pi : Nat) (p : Pool) (bi : Nat) (b : Block) (s : Nat),
    st.pools[pi]? = some p ∧ p.blocks[bi]? = some b ∧
    SpanData b s (roundUpSlots n p.granularity) ∧
    a = b.rxAddr + s * p.granularity ∧ 1 ≤ n

theorem spanLen_of_spanData (b : Block) (s c : Nat) (hd : SpanData b s c) :
    spanLen b s = c := by
  unfold spanLen
  exact firstStopLen_eq b.stop s c (b.slotCount - s) hd.hnostop hd.hstop hd.hc
    (by have := hd.hb; omega)

theorem findOwner_eq (st : JitState) (hwf : StateWF st) (a pi : Nat) (p : Pool)
    (bi : Nat) (b : Block) (hp : st.pools[pi]? = some p)
    (hb : p.blocks[bi]? = some b) (hc : blockContains p.granularity b a = true) :
    findOwner st a = some (pi, p, bi, b) := by
  have hsome := findOwner_isSome st a pi p bi b hp hb hc
  obtain ⟨⟨pi', p', bi', b'⟩, heq⟩ := Option.isSome_iff_exists.mp hsome
  obtain ⟨hp', hb', hc'⟩ := findOwner_spec st a pi' p' bi' b' heq
  by_cases hsame : pi' = pi ∧ bi' = bi
  · obtain ⟨rfl, rfl⟩ := hsame
    rw [hp] at hp'
    obtain rfl : p = p' := by simpa using hp'
    rw [hb] at hb'
    obtain rfl : b = b' := by simpa using hb' 
    exact heq
  · exfalso
    have hd := hwf.disj pi' p' bi' b' pi p bi b hp' hb' hp hb hsame
    simp only [blockContains, decide_eq_true_eq] at hc hc'
    omega

/-! ### Inversion of the successful operations -/

theorem alloc_ok_inv (st st' : JitState) (n rx rw : Nat)
    (h : alloc st n = (.ok (rx, rw), st')) :
    1 ≤ n ∧ ∃ p, st.pools[poolIdFor st.impl n]? = some p ∧
    ((∃ i b s, p.blocks[i]? = some b ∧
        findFreeSpan b.used b.slotCount (roundUpSlots n p.granularity) = some s ∧
        rx = b.rxAddr + s * p.granularity ∧ rw = b.rwAddr + s * p.granularity ∧
        st' = { st with pools := (st.pools.set (poolIdFor st.impl n)
                            ({ p with
                                blocks := (p.blocks.set i
                                  (blockAlloc b s (roundUpSlots n p.granularity)))
                                cursor := i + 1 })) }) ∨
     (∃ sc, sc = max (roundUpSlots st.impl.blockSize p.granularity)
          (roundUpSlots n p.granularity) ∧
        1 ≤ st.osFuel ∧ rx = st.nextAddr ∧
        rw = st.nextAddr + (if dualMappingOpt st.impl then sc * p.granularity else 0) ∧
        poolFindSpan p (roundUpSlots n p.granularity) = none ∧
        st' = { st with
                pools := (st.pools.set (poolIdFor st.impl n)
                  ({ p with blocks := (p.blocks ++
                    [blockAlloc (newBlock rx rw sc) 0 (roundUpSlots n p.granularity)]) }))
                nextAddr := rx + 2 * (sc * p.granularity)
                osFuel := st.osFuel - 1 })) := by
  unfold alloc at h
  split at h
  · exact absurd h (by simp)
  · rename_i hn
    dsimp only at h
    cases hp : st.pools[poolIdFor st.impl n]? with
    | none =>
      rw [hp] at h
      exact absurd h (by simp)
    | some p =>
      rw [hp] at h
      dsimp only at h
      refine ⟨by omega, p, rfl, ?_⟩
      cases hscan : poolFindSpan p (roundUpSlots n p.granularity) with
      | some pr =>
        obtain ⟨i, s⟩ := pr
        rw [hscan] at h
        dsimp only at h
        cases hbi : p.blocks[i]? with
        | none =>
          rw [hbi] at h
          exact absurd h (by simp)
        | some b =>
          rw [hbi] at h
          dsimp only at h
          simp only [Prod.mk.injEq, Except.ok.injEq] at h
          obtain ⟨⟨hrx, hrw⟩, hst⟩ := h
          obtain ⟨b', hb', hfs⟩ :=
            poolScanAux_spec p.blocks (roundUpSlots n p.granularity)
              (scanOrder p.blocks.length p.cursor) i s hscan
          rw [hbi] at hb'
          obtain rfl : b = b' := by simpa using hb'
          exact Or.inl ⟨i, b, s, hbi, hfs, hrx.symm, hrw.symm, hst.symm⟩
      | none =>
        rw [hscan] at h
        dsimp only at h
        split at h
        · exact absurd h (by simp)
        · rename_i hfuel
          simp only [Prod.mk.injEq, Except.ok.injEq] at h
          obtain ⟨⟨hrx, hrw⟩, hst⟩ := h
          refine Or.inr ⟨_, rfl, by omega, hrx.symm, ?_, rfl, ?_⟩
          · rw [← hrw]
          · rw [← hst, ← hrx, ← hrw]

theorem release_ok_inv (st st' : JitState) (a : Nat)
    (h : release st a = (.ok (), st')) :
    ∃ pi p bi b, findOwner st a = some (pi, p, bi, b) ∧
      (a - b.rxAddr) % p.granularity = 0 ∧
      b.used ((a - b.rxAddr) / p.granularity) = true ∧
      st' = { st with pools := (st.pools.set pi
                          (if blockEmpty (blockFree b ((a - b.rxAddr) / p.granularity)
                                (spanLen b ((a - b.rxAddr) / p.granularity))) &&
                              (immediateReleaseOpt st.impl || hasEmptyExcept p.blocks bi)
                           then { p with blocks := p.blocks.eraseIdx bi }
                           else { p with blocks := (p.blocks.set bi
                              (blockFree b ((a - b.rxAddr) / p.granularity)
                                (spanLen b ((a - b.rxAddr) / p.granularity)))) })) } := by
  unfold release at h
  cases hown : findOwner st a with
  | none =>
    rw [hown] at h
    exact absurd h (by simp)
  | some q =>
    obtain ⟨pi, p, bi, b⟩ := q
    rw [hown] at h
    dsimp only at h
    split at h
    · exact absurd h (by simp)
    · rename_i halign
      split at h
      · exact absurd h (by simp)
      · rename_i hused
        simp only [Prod.mk.injEq] at h
        refine ⟨pi, p, bi, b, rfl, by omega, ?_, ?_⟩
        · cases hu : b.used ((a - b.rxAddr) / p.granularity) with
          | false => exact absurd hu hused
          | true => rfl
        · rw [← h.2]

theorem shrink_ok_inv (st st' : JitState) (a n : Nat)
    (h : shrink st a n = (.ok (), st')) :
    1 ≤ n ∧ ∃ pi p bi b, findOwner st a = some (pi, p, bi, b) ∧
      (a - b.rxAddr) % p.granularity = 0 ∧
      b.used ((a - b.rxAddr) / p.granularity) = true ∧
      roundUpSlots n p.granularity ≤ spanLen b ((a - b.rxAddr) / p.granularity) ∧
      allUsedRun b.used ((a - b.rxAddr) / p.granularity)
        (spanLen b ((a - b.rxAddr) / p.granularity)) = true ∧
      st' = { st with pools := (st.pools.set pi
                          ({ p with blocks := (p.blocks.set bi
                            (blockShrink b ((a - b.rxAddr) / p.granularity)
                              (spanLen b ((a - b.rxAddr) / p.granularity))
                              (roundUpSlots n p.granularity))) })) } := by
  unfold shrink at h
  split at h
  · exact absurd h (by simp)
  · rename_i hn
    cases hown : findOwner st a with
    | none =>
      rw [hown] at h
      exact absurd h (by simp)
    | some q =>
      obtain ⟨pi, p, bi, b⟩ := q
      rw [hown] at h
      dsimp only at h
      split at h
      · exact absurd h (by simp)
      · rename_i halign
        split at h
        · exact absurd h (by simp)
        · rename_i hused
          split at h
          · exact absurd h (by simp)
          · rename_i hlen
            split at h
            · exact absurd h (by simp)
            · rename_i hrun
              simp only [Prod.mk.injEq] at h
              refine ⟨by omega, pi, p, bi, b, rfl, by omega, ?_, by omega, ?_, ?_⟩
              · cases hu : b.used ((a - b.rxAddr) / p.granularity) with
                | false => exact absurd hu hused
                | true => rfl
              · cases hr : allUsedRun b.used ((a - b.rxAddr) / p.granularity)
                  (spanLen b ((a - b.rxAddr) / p.granularity)) with
                | false => exact absurd hr hrun
                | true => rfl
              · rw [← h.2]

end JitModel

namespace JitModel

/-! ### Span disjointness -/

theorem spanData_slot_disj_lt (b : Block) (s1 c1 s2 c2 : Nat)
    (h1 : SpanData b s1 c1) (h2 : SpanData b s2 c2) (hlt : s1 < s2) :
    s1 + c1 ≤ s2 := by
  by_contra hcon
  have hs2 : s2 - 1 < s1 + c1 := by omega
  have hj : s2 - 1 - s1 < c1 := by omega
  have hused1 := h1.hused (s2 - 1 - s1) hj
  have he : s1 + (s2 - 1 - s1) = s2 - 1 := by omega
  rw [he] at hused1
  rcases h2.hstart with h0 | hu | hs
  · omega
  · rw [hused1] at hu
    exact absurd hu (by simp)
  · have hj2 : (s2 - 1 - s1) + 1 < c1 := by omega
    have := h1.hnostop (s2 - 1 - s1) hj2
    rw [he] at this
    rw [this] at hs
    exact absurd hs (by simp)

theorem spanData_slot_disj (b : Block) (s1 c1 s2 c2 : Nat)
    (h1 : SpanData b s1 c1) (h2 : SpanData b s2 c2) (hne : s1 ≠ s2) :
    s1 + c1 ≤ s2 ∨ s2 + c2 ≤ s1 := by
  rcases Nat.lt_or_ge s1 s2 with h | h
  · exact Or.inl (spanData_slot_disj_lt b s1 c1 s2 c2 h1 h2 h)
  · exact Or.inr (spanData_slot_disj_lt b s2 c2 s1 c1 h2 h1 (by omega))

theorem spans_disjoint_core (st : JitState) (hwf : StateWF st)
    (pi1 : Nat) (p1 : Pool) (bi1 : Nat) (b1 : Block) (s1 c1 : Nat)
    (pi2 : Nat) (p2 : Pool) (bi2 : Nat) (b2 : Block) (s2 c2 : Nat)
    (hp1 : st.pools[pi1]? = some p1) (hb1 : p1.blocks[bi1]? = some b1)
    (hp2 : st.pools[pi2]? = some p2) (hb2 : p2.blocks[bi2]? = some b2)
    (hd1 : SpanData b1 s1 c1) (hd2 : SpanData b2 s2 c2)
    (hne : b1.rxAddr + s1 * p1.granularity ≠ b2.rxAddr + s2 * p2.granularity) :
    b1.rxAddr + s1 * p1.granularity + c1 * p1.granularity ≤
      b2.rxAddr + s2 * p2.granularity ∨
    b2.rxAddr + s2 * p2.granularity + c2 * p2.granularity ≤
      b1.rxAddr + s1 * p1.granularity := by
  by_cases hsame : pi1 = pi2 ∧ bi1 = bi2
  · obtain ⟨rfl, rfl⟩ := hsame
    rw [hp1] at hp2
    obtain rfl : p1 = p2 := by simpa using hp2
    rw [hb1] at hb2
    obtain rfl : b1 = b2 := by simpa using hb2
    have hg : 0 < p1.granularity := hwf.poolG pi1 p1 hp1
    have hsne : s1 ≠ s2 := by
      intro hcon
      rw [hcon] at hne
      exact hne rfl
    rcases spanData_slot_disj b1 s1 c1 s2 c2 hd1 hd2 hsne with h | h
    · left
      have := Nat.mul_le_mul_right p1.granularity h
      rw [Nat.add_mul] at this
      omega
    · right
      have := Nat.mul_le_mul_right p1.granularity h
      rw [Nat.add_mul] at this
      omega
  · have hd := hwf.disj pi1 p1 bi1 b1 pi2 p2 bi2 b2 hp1 hb1 hp2 hb2 hsame
    have hin1 : s1 + c1 ≤ b1.slotCount := hd1.hb
    have hin2 : s2 + c2 ≤ b2.slotCount := hd2.hb
    have h1 : (s1 + c1) * p1.granularity ≤ b1.slotCount * p1.granularity :=
      Nat.mul_le_mul_right _ hin1
    have h2 : (s2 + c2) * p2.granularity ≤ b2.slotCount * p2.granularity :=
      Nat.mul_le_mul_right _ hin2
    rw [Nat.add_mul] at h1 h2
    omega

/-! ### Initial state -/

theorem fixedGranularity_pos (g : Nat) : 0 < fixedGranularity g := by
  unfold fixedGranularity isPow2
  split
  · rename_i h
    simp only [Bool.and_eq_true, bne_iff_ne, ne_eq] at h
    omega
  · norm_num [kDefaultGranularity]

theorem initState_pools (params : CreateParams) (fuel pi : Nat) (p : Pool)
    (hp : (initState params fuel).pools[pi]? = some p) :
    p.granularity = (initImpl params).granularity <<< pi ∧ p.blocks = [] := by
  unfold initState at hp
  dsimp only at hp
  rw [List.getElem?_map] at hp
  cases hr : (List.range (poolCountOf (initImpl params)))[pi]? with
  | none => rw [hr] at hp; simp at hp
  | some j =>
    rw [hr] at hp
    have hj : j = pi := by
      cases hlt : decide (pi < poolCountOf (initImpl params)) with
      | true =>
        have hlt' := of_decide_eq_true hlt
        rw [List.getElem?_range hlt'] at hr
        have := hr
        simp only [Option.some_inj] at this
        omega
      | false =>
        have hge := of_decide_eq_false hlt
        rw [List.getElem?_eq_none (by simpa using Nat.le_of_not_lt hge)] at hr
        exact absurd hr (by simp)
    subst hj
    obtain rfl : _ = p := by simpa using hp
    exact ⟨rfl, rfl⟩

theorem initState_wf (params : CreateParams) (fuel : Nat) :
    StateWF (initState params fuel) := by
  constructor
  · intro pi p hp
    obtain ⟨hg, _⟩ := initState_pools params fuel pi p hp
    rw [hg, Nat.shiftLeft_eq]
    have h1 : 0 < (initImpl params).granularity := fixedGranularity_pos params.granularity
    have h2 : 0 < 2 ^ pi := Nat.pos_pow_of_pos pi (by omega)
    exact Nat.mul_pos h1 h2
  · intro pi p bi b hp hb
    obtain ⟨_, hnil⟩ := initState_pools params fuel pi p hp
    rw [hnil] at hb
    simp at hb
  · intro pi1 p1 bi1 b1 pi2 p2 bi2 b2 hp1 hb1 hp2 hb2 hne
    obtain ⟨_, hnil⟩ := initState_pools params fuel pi1 p1 hp1
    rw [hnil] at hb1
    simp at hb1

end JitModel

namespace JitModel

/-! ### Well-formedness preservation helpers -/

theorem lt_length_of_getElem? {α : Type} (l : List α) (i : Nat) (x : α)
    (h : l[i]? = some x) : i < l.length :=
  (List.getElem?_eq_some.mp h).1

theorem getElem?_set_if {α : Type} (l : List α) (i j : Nat) (x : α)
    (hx : i < l.length) :
    (l.set i x)[j]? = if i = j then some x else l[j]? := by
  rw [List.getElem?_set]
  split
  · simp [hx]
  · rfl

/-- Replacing one block of one pool by a block with the same address
range preserves state well-formedness, provided the new block's bitmaps
are in bounds and its stop bits sit on used slots. -/
theorem stateWF_update_block (st : JitState) (hwf : StateWF st) (pid : Nat) (p : Pool)
    (i cur : Nat) (b bNew : Block)
    (hp : st.pools[pid]? = some p) (hb : p.blocks[i]? = some b)
    (hrx : bNew.rxAddr = b.rxAddr) (hrw : bNew.rwAddr = b.rwAddr)
    (hsc : bNew.slotCount = b.slotCount)
    (hub : ∀ i0, bNew.slotCount ≤ i0 → bNew.used i0 = false)
    (hsb : ∀ i0, bNew.slotCount ≤ i0 → bNew.stop i0 = false)
    (hsu : ∀ i0, bNew.stop i0 = true → bNew.used i0 = true) :
    StateWF { st with pools := (st.pools.set pid
      ({ p with blocks := p.blocks.set i bNew, cursor := cur })) } := by
  have hpl := lt_length_of_getElem? st.pools pid p hp
  have hbl := lt_length_of_getElem? p.blocks i b hb
  have key : ∀ (pi' : Nat) (p' : Pool) (bi' : Nat) (b' : Block),
      (st.pools.set pid ({ p with blocks := p.blocks.set i bNew, cursor := cur }))[pi']?
        = some p' →
      p'.blocks[bi']? = some b' →
      ∃ (p0 : Pool) (b0 : Block), st.pools[pi']? = some p0 ∧ p0.blocks[bi']? = some b0 ∧
        p'.granularity = p0.granularity ∧ b'.rxAddr = b0.rxAddr ∧
        b'.slotCount = b0.slotCount := by
    intro pi' p' bi' b' h1 h2
    rw [getElem?_set_if st.pools pid pi' _ hpl] at h1
    split at h1
    · rename_i hpi
      obtain rfl : _ = p' := by simpa using h1
      dsimp only at h2
      rw [getElem?_set_if p.blocks i bi' bNew hbl] at h2
      split at h2
      · rename_i hbi
        obtain rfl : bNew = b' := by simpa using h2
        exact ⟨p, b, hpi ▸ hp, hbi ▸ hb, rfl, hrx, hsc⟩
      · exact ⟨p, b', hpi ▸ hp, h2, rfl, rfl, rfl⟩
    · exact ⟨p', b', h1, h2, rfl, rfl, rfl⟩
  constructor
  · intro pi' p' h1
    rw [getElem?_set_if st.pools pid pi' _ hpl] at h1
    split at h1
    · rename_i hpi
      obtain rfl : _ = p' := by simpa using h1
      exact hwf.poolG pid p (hpi ▸ hp)
    · exact hwf.poolG pi' p' h1
  · intro pi' p' bi' b' h1 h2
    rw [getElem?_set_if st.pools pid pi' _ hpl] at h1
    split at h1
    · rename_i hpi
      obtain rfl : _ = p' := by simpa using h1
      dsimp only at h2
      rw [getElem?_set_if p.blocks i bi' bNew hbl] at h2
      split at h2
      · rename_i hbi
        obtain rfl : bNew = b' := by simpa using h2
        have hw := hwf.blockWF pid p i b hp hb
        constructor
        · rw [hsc]; exact hw.sc
        · rw [hrx, hsc]; exact hw.bend
        · rw [hrw, hrx, hsc]; exact hw.rwView
        · exact hub
        · exact hsb
        · exact hsu
      · exact hwf.blockWF pid p bi' b' hp h2
    · exact hwf.blockWF pi' p' bi' b' h1 h2
  · intro pi1 p1 bi1 b1 pi2 p2 bi2 b2 h1 h2 h3 h4 hne
    obtain ⟨q1, c1, hq1, hc1, hg1, hx1, hs1⟩ := key pi1 p1 bi1 b1 h1 h2
    obtain ⟨q2, c2, hq2, hc2, hg2, hx2, hs2⟩ := key pi2 p2 bi2 b2 h3 h4
    rw [hg1, hg2, hx1, hx2, hs1, hs2]
    exact hwf.disj pi1 q1 bi1 c1 pi2 q2 bi2 c2 hq1 hc1 hq2 hc2 hne

end JitModel

namespace JitModel

/-- Appending a fresh block at the address frontier preserves state
well-formedness, for any new frontier at or beyond the new block's end
and any remaining fuel. -/
theorem stateWF_append_block (st : JitState) (hwf : StateWF st) (pid : Nat) (p : Pool)
    (bNew : Block) (fuel' nextAddr' : Nat)
    (hp : st.pools[pid]? = some p)
    (hsc : 1 ≤ bNew.slotCount)
    (hrx : bNew.rxAddr = st.nextAddr)
    (hrw : bNew.rwAddr = bNew.rxAddr +
      (if dualMappingOpt st.impl then bNew.slotCount * p.granularity else 0))
    (hub : ∀ i0, bNew.slotCount ≤ i0 → bNew.used i0 = false)
    (hsb : ∀ i0, bNew.slotCount ≤ i0 → bNew.stop i0 = false)
    (hsu : ∀ i0, bNew.stop i0 = true → bNew.used i0 = true)
    (hnext : st.nextAddr + bNew.slotCount * p.granularity ≤ nextAddr') :
    StateWF { st with
              pools := (st.pools.set pid ({ p with blocks := p.blocks ++ [bNew] }))
              nextAddr := nextAddr'
              osFuel := fuel' } := by
  have hpl := lt_length_of_getElem? st.pools pid p hp
  have key : ∀ (pi' : Nat) (p' : Pool) (bi' : Nat) (b' : Block),
      (st.pools.set pid ({ p with blocks := p.blocks ++ [bNew] }))[pi']? = some p' →
      p'.blocks[bi']? = some b' →
      (∃ (p0 : Pool) (b0 : Block), st.pools[pi']? = some p0 ∧ p0.blocks[bi']? = some b0 ∧
        p'.granularity = p0.granularity ∧ b' = b0) ∨
      (pi' = pid ∧ bi' = p.blocks.length ∧ p'.granularity = p.granularity ∧ b' = bNew) := by
    intro pi' p' bi' b' h1 h2
    rw [getElem?_set_if st.pools pid pi' _ hpl] at h1
    split at h1
    · rename_i hpi
      obtain rfl : _ = p' := by simpa using h1
      dsimp only at h2
      rw [List.getElem?_append] at h2
      split at h2
      · exact Or.inl ⟨p, b', hpi ▸ hp, h2, rfl, rfl⟩
      · rename_i hlen
        have hbi : bi' = p.blocks.length := by
          have hl := lt_length_of_getElem? _ _ _ h2
          simp only [List.length_cons, List.length_nil] at hl
          omega
        subst hbi
        simp only [Nat.sub_self] at h2
        obtain rfl : bNew = b' := by simpa using h2
        exact Or.inr ⟨hpi.symm, rfl, rfl, rfl⟩
    · exact Or.inl ⟨p', b', h1, h2, rfl, rfl⟩
  have hgp : 0 < p.granularity := hwf.poolG pid p hp
  constructor
  · intro pi' p' h1
    rw [getElem?_set_if st.pools pid pi' _ hpl] at h1
    split at h1
    · rename_i hpi
      obtain rfl : _ = p' := by simpa using h1
      exact hwf.poolG pid p (hpi ▸ hp)
    · exact hwf.poolG pi' p' h1
  · intro pi' p' bi' b' h1 h2
    rcases key pi' p' bi' b' h1 h2 with ⟨p0, b0, hq, hc, hg, hbe⟩ | ⟨hpi, hbi, hg, hbe⟩
    · subst hbe
      have hw := hwf.blockWF pi' p0 bi' b' hq hc
      constructor
      · exact hw.sc
      · dsimp only
        rw [hg]
        have := hw.bend
        omega
      · rw [hg]
        exact hw.rwView
      · exact hw.usedBound
      · exact hw.stopBound
      · exact hw.stopUsed
    · subst hbe
      constructor
      · exact hsc
      · dsimp only
        rw [hg, hrx]
        exact hnext
      · rw [hg]
        exact hrw
      · exact hub
      · exact hsb
      · exact hsu
  · intro pi1 p1 bi1 b1 pi2 p2 bi2 b2 h1 h2 h3 h4 hne
    rcases key pi1 p1 bi1 b1 h1 h2 with ⟨q1, c1, hq1, hc1, hg1, hbe1⟩ | ⟨hpi1, hbi1, hg1, hbe1⟩ <;>
      rcases key pi2 p2 bi2 b2 h3 h4 with ⟨q2, c2, hq2, hc2, hg2, hbe2⟩ | ⟨hpi2, hbi2, hg2, hbe2⟩ <;>
      subst hbe1 <;> subst hbe2
    · rw [hg1, hg2]
      exact hwf.disj pi1 q1 bi1 b1 pi2 q2 bi2 b2 hq1 hc1 hq2 hc2 hne
    · left
      rw [hg1, hrx]
      have := (hwf.blockWF pi1 q1 bi1 b1 hq1 hc1).bend
      omega
    · right
      rw [hg2, hrx]
      have := (hwf.blockWF pi2 q2 bi2 b2 hq2 hc2).bend
      omega
    · exfalso
      exact hne ⟨hpi1.trans hpi2.symm, hbi1.trans hbi2.symm⟩

/-- Destroying one block of one pool preserves state well-formedness. -/
theorem stateWF_erase_block (st : JitState) (hwf : StateWF st) (pid : Nat) (p : Pool)
    (bi : Nat) (hp : st.pools[pid]? = some p) :
    StateWF { st with pools := (st.pools.set pid
      ({ p with blocks := p.blocks.eraseIdx bi })) } := by
  have hpl := lt_length_of_getElem? st.pools pid p hp
  have key : ∀ (pi' : Nat) (p' : Pool) (bi' : Nat) (b' : Block),
      (st.pools.set pid ({ p with blocks := p.blocks.eraseIdx bi }))[pi']? = some p' →
      p'.blocks[bi']? = some b' →
      ∃ (p0 : Pool) (bi0 : Nat) (b0 : Block), st.pools[pi']? = some p0 ∧
        p0.blocks[bi0]? = some b0 ∧ p'.granularity = p0.granularity ∧ b' = b0 ∧
        bi0 = (if pi' = pid ∧ ¬bi' < bi then bi' + 1 else bi') := by
    intro pi' p' bi' b' h1 h2
    rw [getElem?_set_if st.pools pid pi' _ hpl] at h1
    split at h1
    · rename_i hpi
      obtain rfl : _ = p' := by simpa using h1
      dsimp only at h2
      rw [getElem?_eraseIdx p.blocks bi bi'] at h2
      split at h2
      · rename_i hlt
        exact ⟨p, bi', b', hpi ▸ hp, h2, rfl, rfl, by simp [hlt]⟩
      · rename_i hlt
        exact ⟨p, bi' + 1, b', hpi ▸ hp, h2, rfl, rfl, by simp [hpi.symm, hlt]⟩
    · rename_i hpi
      have hne : ¬(pi' = pid) := fun h => hpi h.symm
      exact ⟨p', bi', b', h1, h2, rfl, rfl, by simp [hne]⟩
  constructor
  · intro pi' p' h1
    rw [getElem?_set_if st.pools pid pi' _ hpl] at h1
    split at h1
    · rename_i hpi
      obtain rfl : _ = p' := by simpa using h1
      exact hwf.poolG pid p (hpi ▸ hp)
    · exact hwf.poolG pi' p' h1
  · intro pi' p' bi' b' h1 h2
    obtain ⟨p0, bi0, b0, hq, hc, hg, hbe, _⟩ := key pi' p' bi' b' h1 h2
    subst hbe
    have hw := hwf.blockWF pi' p0 bi0 b' hq hc
    constructor
    · exact hw.sc
    · rw [hg]; exact hw.bend
    · rw [hg]; exact hw.rwView
    · exact hw.usedBound
    · exact hw.stopBound
    · exact hw.stopUsed
  · intro pi1 p1 bi1 b1 pi2 p2 bi2 b2 h1 h2 h3 h4 hne
    obtain ⟨q1, j1, c1, hq1, hc1, hg1, hbe1, hj1⟩ := key pi1 p1 bi1 b1 h1 h2
    obtain ⟨q2, j2, c2, hq2, hc2, hg2, hbe2, hj2⟩ := key pi2 p2 bi2 b2 h3 h4
    subst hbe1
    subst hbe2
    rw [hg1, hg2]
    refine hwf.disj pi1 q1 j1 b1 pi2 q2 j2 b2 hq1 hc1 hq2 hc2 ?_
    intro hcon
    obtain ⟨hpe, hje⟩ := hcon
    apply hne
    refine ⟨hpe, ?_⟩
    by_cases hpp : pi1 = pid
    · have hpp2 : pi2 = pid := hpe ▸ hpp
      simp only [hpp, hpp2, true_and] at hj1 hj2
      split at hj1 <;> split at hj2 <;> omega
    · have hpp2 : ¬(pi2 = pid) := fun h => hpp (hpe ▸ h)
      simp only [hpp, hpp2, false_and, if_false] at hj1 hj2
      omega

end JitModel

namespace JitModel

theorem firstStopLen_le (stop : Nat → Bool) (s fuel : Nat) :
    firstStopLen stop s fuel ≤ fuel := by
  induction fuel generalizing s with
  | zero => simp [firstStopLen]
  | succ k ih =>
    unfold firstStopLen
    split
    · omega
    · have := ih (s + 1)
      omega

theorem firstStopLen_pos (stop : Nat → Bool) (s fuel : Nat) (h : 1 ≤ fuel) :
    1 ≤ firstStopLen stop s fuel := by
  obtain ⟨k, rfl⟩ : ∃ k, fuel = k + 1 := ⟨fuel - 1, by omega⟩
  unfold firstStopLen
  split
  · omega
  · omega

theorem firstStopLen_no_stop (stop : Nat → Bool) (s fuel j : Nat)
    (h : j + 1 < firstStopLen stop s fuel) : stop (s + j) = false := by
  induction fuel generalizing s j with
  | zero => simp [firstStopLen] at h
  | succ k ih =>
    unfold firstStopLen at h
    split at h
    · omega
    · rename_i hs
      cases j with
      | zero =>
        simpa using eq_false_of_ne_true hs
      | succ m =>
        have := ih (s + 1) m (by omega)
        have e : s + 1 + m = s + (m + 1) := by omega
        rw [e] at this
        exact this

theorem firstStopLen_stop (stop : Nat → Bool) (s fuel : Nat)
    (h : firstStopLen stop s fuel < fuel) (h1 : 1 ≤ firstStopLen stop s fuel) :
    stop (s + (firstStopLen stop s fuel - 1)) = true := by
  induction fuel generalizing s with
  | zero => omega
  | succ k ih =>
    by_cases hs : stop s = true
    · have he : firstStopLen stop s (k + 1) = 1 := by
        rw [show firstStopLen stop s (k + 1) =
          (if stop s = true then 1 else 1 + firstStopLen stop (s + 1) k) from rfl]
        simp [hs]
      rw [he]
      simpa using hs
    · have he : firstStopLen stop s (k + 1) = 1 + firstStopLen stop (s + 1) k := by
        rw [show firstStopLen stop s (k + 1) =
          (if stop s = true then 1 else 1 + firstStopLen stop (s + 1) k) from rfl]
        simp [hs]
      rw [he] at h h1 ⊢
      have hlt : firstStopLen stop (s + 1) k < k := by omega
      have hpos : 1 ≤ firstStopLen stop (s + 1) k :=
        firstStopLen_pos stop (s + 1) k (by omega)
      have hrec := ih (s + 1) hlt hpos
      have e : s + 1 + (firstStopLen stop (s + 1) k - 1) =
          s + (1 + firstStopLen stop (s + 1) k - 1) := by omega
      rw [e] at hrec
      exact hrec

theorem release_wf (st st' : JitState) (a : Nat) (hwf : StateWF st)
    (h : release st a = (.ok (), st')) : StateWF st' := by
  obtain ⟨pi, p, bi, b, hown, halign, hused, hst⟩ := release_ok_inv st st' a h
  obtain ⟨hp, hb, hcontains⟩ := findOwner_spec st a pi p bi b hown
  subst hst
  split
  · exact stateWF_erase_block st hwf pi p bi hp
  · set s := (a - b.rxAddr) / p.granularity with hs
    set len := spanLen b s with hlen
    have hw := hwf.blockWF pi p bi b hp hb
    apply stateWF_update_block st hwf pi p bi p.cursor b (blockFree b s len) hp hb
      rfl rfl rfl
    · intro i0 hi0
      show setRun b.used s len false i0 = false
      by_cases hm : s ≤ i0 ∧ i0 < s + len
      · exact setRun_mem _ _ _ _ _ hm.1 hm.2
      · rw [setRun_notmem _ _ _ _ _ (by omega)]
        exact hw.usedBound i0 hi0
    · intro i0 hi0
      show setRun b.stop s len false i0 = false
      by_cases hm : s ≤ i0 ∧ i0 < s + len
      · exact setRun_mem _ _ _ _ _ hm.1 hm.2
      · rw [setRun_notmem _ _ _ _ _ (by omega)]
        exact hw.stopBound i0 hi0
    · intro i0 hstop
      rw [show (blockFree b s len).stop = setRun b.stop s len false from rfl] at hstop
      show setRun b.used s len false i0 = true
      by_cases hm : s ≤ i0 ∧ i0 < s + len
      · rw [setRun_mem _ _ _ _ _ hm.1 hm.2] at hstop
        exact absurd hstop (by simp)
      · rw [setRun_notmem _ _ _ _ _ (by omega)] at hstop ⊢
        exact hw.stopUsed i0 hstop

theorem shrink_wf (st st' : JitState) (a n : Nat) (hwf : StateWF st)
    (h : shrink st a n = (.ok (), st')) : StateWF st' := by
  obtain ⟨hn, pi, p, bi, b, hown, halign, hused, hle, hrun, hst⟩ := shrink_ok_inv st st' a n h
  obtain ⟨hp, hb, hcontains⟩ := findOwner_spec st a pi p bi b hown
  subst hst
  obtain ⟨s, hs⟩ : ∃ s, (a - b.rxAddr) / p.granularity = s := ⟨_, rfl⟩
  rw [hs] at hused hle hrun ⊢
  obtain ⟨len, hlen⟩ : ∃ l, spanLen b s = l := ⟨_, rfl⟩
  rw [hlen] at hle hrun ⊢
  obtain ⟨c', hc'⟩ : ∃ c0, roundUpSlots n p.granularity = c0 := ⟨_, rfl⟩
  rw [hc'] at hle ⊢
  have hg : 0 < p.granularity := hwf.poolG pi p hp
  have hc1 : 1 ≤ c' := by
    rw [← hc']
    exact roundUpSlots_pos n p.granularity hn hg
  have hw := hwf.blockWF pi p bi b hp hb
  have hfuel : len ≤ b.slotCount - s := by
    rw [← hlen]
    exact firstStopLen_le b.stop s (b.slotCount - s)
  have hsl : s + c' ≤ b.slotCount := by omega
  have hall := (allUsedRun_iff b.used s len).mp hrun
  apply stateWF_update_block st hwf pi p bi p.cursor b (blockShrink b s len c') hp hb
    rfl rfl rfl
  · intro i0 hi0
    have hi0' : b.slotCount ≤ i0 := hi0
    show setRun b.used (s + c') (len - c') false i0 = false
    by_cases hm : s + c' ≤ i0 ∧ i0 < s + c' + (len - c')
    · exact setRun_mem _ _ _ _ _ hm.1 hm.2
    · rw [setRun_notmem _ _ _ _ _ (by omega)]
      exact hw.usedBound i0 hi0'
  · intro i0 hi0
    have hi0' : b.slotCount ≤ i0 := hi0
    show setBit (setRun b.stop (s + c') (len - c') false) (s + c' - 1) true i0 = false
    rw [setBit_other _ _ _ _ (by omega)]
    by_cases hm : s + c' ≤ i0 ∧ i0 < s + c' + (len - c')
    · exact setRun_mem _ _ _ _ _ hm.1 hm.2
    · rw [setRun_notmem _ _ _ _ _ (by omega)]
      exact hw.stopBound i0 hi0'
  · intro i0 hstop
    rw [show (blockShrink b s len c').stop =
      setBit (setRun b.stop (s + c') (len - c') false) (s + c' - 1) true from rfl] at hstop
    show setRun b.used (s + c') (len - c') false i0 = true
    by_cases he : i0 = s + c' - 1
    · subst he
      rw [setRun_notmem _ _ _ _ _ (by omega)]
      have hx := hall (c' - 1) (by omega)
      have e : s + (c' - 1) = s + c' - 1 := by omega
      rw [e] at hx
      exact hx
    · rw [setBit_other _ _ _ _ he] at hstop
      by_cases hm : s + c' ≤ i0 ∧ i0 < s + c' + (len - c')
      · rw [setRun_mem _ _ _ _ _ hm.1 hm.2] at hstop
        exact absurd hstop (by simp)
      · rw [setRun_notmem _ _ _ _ _ (by omega)] at hstop
        rw [setRun_notmem _ _ _ _ _ (by omega)]
        exact hw.stopUsed i0 hstop

theorem alloc_wf (st st' : JitState) (n rx rw : Nat) (hwf : StateWF st)
    (h : alloc st n = (.ok (rx, rw), st')) : StateWF st' := by
  obtain ⟨hn, p, hp, hcase⟩ := alloc_ok_inv st st' n rx rw h
  have hg : 0 < p.granularity := hwf.poolG _ p hp
  rcases hcase with ⟨i, b, s, hb, hfs, hrx, hrw, hst⟩ | ⟨sc, hsc, hfuel, hrx, hrw, hscan, hst⟩
  · obtain ⟨hfree, hbound⟩ := findFreeSpan_spec b.used b.slotCount _ s hfs
    subst hst
    obtain ⟨c, hc⟩ : ∃ c0, roundUpSlots n p.granularity = c0 := ⟨_, rfl⟩
    rw [hc] at hfree hbound ⊢
    have hc1 : 1 ≤ c := by
      rw [← hc]
      exact roundUpSlots_pos n p.granularity hn hg
    have hw := hwf.blockWF _ p i b hp hb
    apply stateWF_update_block st hwf _ p i (i + 1) b (blockAlloc b s c) hp hb
      rfl rfl rfl
    · intro i0 hi0
      have hi0' : b.slotCount ≤ i0 := hi0
      show setRun b.used s c true i0 = false
      rw [setRun_notmem _ _ _ _ _ (by omega)]
      exact hw.usedBound i0 hi0'
    · intro i0 hi0
      have hi0' : b.slotCount ≤ i0 := hi0
      show setBit b.stop (s + c - 1) true i0 = false
      rw [setBit_other _ _ _ _ (by omega)]
      exact hw.stopBound i0 hi0'
    · intro i0 hstop
      rw [show (blockAlloc b s c).stop = setBit b.stop (s + c - 1) true from rfl] at hstop
      show setRun b.used s c true i0 = true
      by_cases he : i0 = s + c - 1
      · exact setRun_mem _ _ _ _ _ (by omega) (by omega)
      · rw [setBit_other _ _ _ _ he] at hstop
        by_cases hm : s ≤ i0 ∧ i0 < s + c
        · exact setRun_mem _ _ _ _ _ hm.1 hm.2
        · rw [setRun_notmem _ _ _ _ _ (by omega)]
          exact hw.stopUsed i0 hstop
  · subst hst
    obtain ⟨c, hc⟩ : ∃ c0, roundUpSlots n p.granularity = c0 := ⟨_, rfl⟩
    rw [hc] at hscan ⊢
    have hc1 : 1 ≤ c := by
      rw [← hc]
      exact roundUpSlots_pos n p.granularity hn hg
    have hscc : c ≤ sc := by
      rw [hsc, ← hc]
      exact Nat.le_max_right _ _
    apply stateWF_append_block st hwf _ p
      (blockAlloc (newBlock rx rw sc) 0 c) (st.osFuel - 1) (rx + 2 * (sc * p.granularity)) hp
    · show 1 ≤ sc
      omega
    · show rx = st.nextAddr
      exact hrx
    · show rw = rx + (if dualMappingOpt st.impl then sc * p.granularity else 0)
      rw [hrw, hrx]
    · intro i0 hi0
      have hi0' : sc ≤ i0 := hi0
      show setRun (fun _ => false) 0 c true i0 = false
      rw [setRun_notmem _ _ _ _ _ (by omega)]
    · intro i0 hi0
      have hi0' : sc ≤ i0 := hi0
      show setBit (fun _ => false) (0 + c - 1) true i0 = false
      rw [setBit_other _ _ _ _ (by omega)]
    · intro i0 hstop
      rw [show (blockAlloc (newBlock rx rw sc) 0 c).stop =
        setBit (fun _ => false) (0 + c - 1) true from rfl] at hstop
      show setRun (fun _ => false) 0 c true i0 = true
      by_cases he : i0 = 0 + c - 1
      · exact setRun_mem _ _ _ _ _ (by omega) (by omega)
      · rw [setBit_other _ _ _ _ he] at hstop
        exact absurd hstop (by simp)
    · show st.nextAddr + (blockAlloc (newBlock rx rw sc) 0 c).slotCount * p.granularity ≤
        rx + 2 * (sc * p.granularity)
      have he : (blockAlloc (newBlock rx rw sc) 0 c).slotCount = sc := rfl
      rw [he, hrx]
      omega

end JitModel

namespace JitModel

/-! ### Used-slot accounting -/

theorem sumBlocksUsed_set (l : List Block) (i : Nat) (b bNew : Block)
    (h : l[i]? = some b) :
    sumBlocksUsed (l.set i bNew) + blockUsedCount b =
      sumBlocksUsed l + blockUsedCount bNew := by
  induction l generalizing i with
  | nil => simp at h
  | cons hd rest ih =>
    cases i with
    | zero =>
      obtain rfl : hd = b := by simpa using h
      simp only [List.set_cons_zero, sumBlocksUsed]
      omega
    | succ m =>
      simp only [List.getElem?_cons_succ] at h
      simp only [List.set_cons_succ, sumBlocksUsed]
      have := ih m h
      omega

theorem sumBlocksUsed_append (l : List Block) (b : Block) :
    sumBlocksUsed (l ++ [b]) = sumBlocksUsed l + blockUsedCount b := by
  induction l with
  | nil => simp [sumBlocksUsed]
  | cons hd rest ih =>
    show blockUsedCount hd + sumBlocksUsed (rest ++ [b]) = _
    rw [ih]
    show _ = blockUsedCount hd + sumBlocksUsed rest + blockUsedCount b
    omega

theorem sumBlocksUsed_erase (l : List Block) (i : Nat) (b : Block)
    (h : l[i]? = some b) :
    sumBlocksUsed (l.eraseIdx i) + blockUsedCount b = sumBlocksUsed l := by
  induction l generalizing i with
  | nil => simp at h
  | cons hd rest ih =>
    cases i with
    | zero =>
      obtain rfl : hd = b := by simpa using h
      simp only [List.eraseIdx, sumBlocksUsed]
      omega
    | succ m =>
      simp only [List.getElem?_cons_succ] at h
      simp only [List.eraseIdx, sumBlocksUsed]
      have := ih m h
      omega

theorem sumPoolsUsed_set (pools : List Pool) (i : Nat) (p pNew : Pool)
    (h : pools[i]? = some p) :
    sumPoolsUsed (pools.set i pNew) + sumBlocksUsed p.blocks =
      sumPoolsUsed pools + sumBlocksUsed pNew.blocks := by
  induction pools generalizing i with
  | nil => simp at h
  | cons hd rest ih =>
    cases i with
    | zero =>
      obtain rfl : hd = p := by simpa using h
      simp only [List.set_cons_zero, sumPoolsUsed]
      omega
    | succ m =>
      simp only [List.getElem?_cons_succ] at h
      simp only [List.set_cons_succ, sumPoolsUsed]
      have := ih m h
      omega

theorem blockUsedCount_mark (b : Block) (s c : Nat)
    (hfree : ∀ j, j < c → b.used (s + j) = false) (hbound : s + c ≤ b.slotCount) :
    blockUsedCount (blockAlloc b s c) = blockUsedCount b + c := by
  unfold blockUsedCount
  exact countTrue_setRun_true b.used s c b.slotCount hfree hbound

theorem blockUsedCount_free (b : Block) (s len : Nat)
    (hused : ∀ j, j < len → b.used (s + j) = true) (hbound : s + len ≤ b.slotCount) :
    blockUsedCount (blockFree b s len) + len = blockUsedCount b := by
  unfold blockUsedCount
  exact countTrue_setRun_false b.used s len b.slotCount hused hbound

theorem countTrue_false_fun (n : Nat) : countTrue (fun _ => false) n = 0 := by
  induction n with
  | zero => rfl
  | succ m ih => simp [countTrue, ih]

/-- Effect of a successful allocation: the state stays well-formed, the
configuration is unchanged, the marked span sits in the post state at the
returned addresses, and the aggregate used-slot count grows by the span's
slot count. -/
theorem alloc_ok_span (st st' : JitState) (n rx rw : Nat) (hwf : StateWF st)
    (h : alloc st n = (.ok (rx, rw), st')) :
    ∃ (pi : Nat) (p : Pool) (bi : Nat) (b : Block) (s c : Nat),
      st'.pools[pi]? = some p ∧ p.blocks[bi]? = some b ∧
      c = roundUpSlots n p.granularity ∧
      rx = b.rxAddr + s * p.granularity ∧
      rw = b.rwAddr + s * p.granularity ∧
      1 ≤ c ∧ s + c ≤ b.slotCount ∧
      (∀ j, j < c → b.used (s + j) = true) ∧
      b.stop (s + c - 1) = true ∧
      (∀ j, j + 1 < c → b.stop (s + j) = false) ∧
      usedSlots st' = usedSlots st + c := by
  obtain ⟨hn, p, hp, hcase⟩ := alloc_ok_inv st st' n rx rw h
  have hg : 0 < p.granularity := hwf.poolG _ p hp
  have hpl := lt_length_of_getElem? st.pools _ p hp
  rcases hcase with ⟨i, b, s, hb, hfs, hrx, hrw, hst⟩ | ⟨sc, hsc, hfuel, hrx, hrw, hscan, hst⟩
  · obtain ⟨hfree, hbound⟩ := findFreeSpan_spec b.used b.slotCount _ s hfs
    have hbl := lt_length_of_getElem? p.blocks i b hb
    have hc1 : 1 ≤ roundUpSlots n p.granularity := roundUpSlots_pos n p.granularity hn hg
    have hw := hwf.blockWF _ p i b hp hb
    refine ⟨poolIdFor st.impl n,
      { p with blocks := (p.blocks.set i (blockAlloc b s (roundUpSlots n p.granularity)))
               cursor := i + 1 },
      i, blockAlloc b s (roundUpSlots n p.granularity),
      s, roundUpSlots n p.granularity, ?_, ?_, rfl, hrx, hrw, hc1, hbound, ?_, ?_, ?_, ?_⟩
    · rw [hst]
      exact getElem?_set_if st.pools _ _ _ hpl |>.trans (by simp)
    · dsimp only
      exact getElem?_set_if p.blocks i i _ hbl |>.trans (by simp)
    · intro j hj
      exact setRun_mem _ _ _ _ _ (by omega) (by omega)
    · show setBit b.stop (s + roundUpSlots n p.granularity - 1) true _ = true
      exact setBit_self _ _ _
    · intro j hj
      show setBit b.stop (s + roundUpSlots n p.granularity - 1) true (s + j) = false
      rw [setBit_other _ _ _ _ (by omega)]
      cases hx : b.stop (s + j) with
      | false => rfl
      | true =>
        have hy := hw.stopUsed (s + j) hx
        rw [hfree j (by omega)] at hy
        exact absurd hy (by simp)
    · rw [hst]
      show sumPoolsUsed (st.pools.set (poolIdFor st.impl n) _) = sumPoolsUsed st.pools + _
      have h1 := sumPoolsUsed_set st.pools (poolIdFor st.impl n) p
        ({ p with blocks := (p.blocks.set i (blockAlloc b s (roundUpSlots n p.granularity)))
                  cursor := i + 1 }) hp
      have h2 := sumBlocksUsed_set p.blocks i b (blockAlloc b s (roundUpSlots n p.granularity)) hb
      have h3 := blockUsedCount_mark b s (roundUpSlots n p.granularity) hfree hbound
      dsimp only at h1
      omega
  · have hc1 : 1 ≤ roundUpSlots n p.granularity := roundUpSlots_pos n p.granularity hn hg
    have hscc : roundUpSlots n p.granularity ≤ sc := by
      rw [hsc]
      exact Nat.le_max_right _ _
    refine ⟨poolIdFor st.impl n,
      { p with blocks := (p.blocks ++
          [blockAlloc (newBlock rx rw sc) 0 (roundUpSlots n p.granularity)]) },
      p.blocks.length,
      blockAlloc (newBlock rx rw sc) 0 (roundUpSlots n p.granularity),
      0, roundUpSlots n p.granularity, ?_, ?_, rfl, by simp [blockAlloc, newBlock],
      by simp [blockAlloc, newBlock], hc1, by simpa using hscc, ?_, ?_, ?_, ?_⟩
    · rw [hst]
      exact getElem?_set_if st.pools _ _ _ hpl |>.trans (by simp)
    · dsimp only
      exact List.getElem?_concat_length _ _
    · intro j hj
      exact setRun_mem _ _ _ _ _ (by omega) (by omega)
    · exact setBit_self _ _ _
    · intro j hj
      show setBit (fun _ => false) (0 + roundUpSlots n p.granularity - 1) true (0 + j) = false
      rw [setBit_other _ _ _ _ (by omega)]
    · rw [hst]
      show sumPoolsUsed (st.pools.set (poolIdFor st.impl n) _) = sumPoolsUsed st.pools + _
      have h1 := sumPoolsUsed_set st.pools (poolIdFor st.impl n) p
        ({ p with blocks := (p.blocks ++
          [blockAlloc (newBlock rx rw sc) 0 (roundUpSlots n p.granularity)]) }) hp
      have h2 := sumBlocksUsed_append p.blocks
        (blockAlloc (newBlock rx rw sc) 0 (roundUpSlots n p.granularity))
      have h3 : blockUsedCount (blockAlloc (newBlock rx rw sc) 0 (roundUpSlots n p.granularity))
          = roundUpSlots n p.granularity := by
        have := blockUsedCount_mark (newBlock rx rw sc) 0 (roundUpSlots n p.granularity)
          (fun j hj => rfl) (by simpa using hscc)
        rw [this]
        show countTrue (fun _ => false) sc + _ = _
        have hz := countTrue_false_fun sc
        omega
      dsimp only at h1
      omega

end JitModel

namespace JitModel

theorem span_contains (g : Nat) (b : Block) (s c : Nat) (hg : 0 < g)
    (hc1 : 1 ≤ c) (hbound : s + c ≤ b.slotCount) :
    blockContains g b (b.rxAddr + s * g) = true := by
  unfold blockContains
  rw [decide_eq_true_eq]
  have h2 : (s + 1) * g ≤ b.slotCount * g := Nat.mul_le_mul_right g (by omega)
  have h3 : (s + 1) * g = s * g + g := by ring
  omega

theorem release_at_span (st : JitState) (hwf : StateWF st) (pi : Nat) (p : Pool) (bi : Nat)
    (b : Block) (s c : Nat) (hp : st.pools[pi]? = some p) (hb : p.blocks[bi]? = some b)
    (hc1 : 1 ≤ c) (hbound : s + c ≤ b.slotCount)
    (hused : ∀ j, j < c → b.used (s + j) = true)
    (hstop : b.stop (s + c - 1) = true)
    (hnostop : ∀ j, j + 1 < c → b.stop (s + j) = false) :
    (release st (b.rxAddr + s * p.granularity)).1 = .ok () ∧
    usedSlots (release st (b.rxAddr + s * p.granularity)).2 + c = usedSlots st := by
  have hg : 0 < p.granularity := hwf.poolG pi p hp
  have hcontains := span_contains p.granularity b s c hg hc1 hbound
  have hfound := findOwner_eq st hwf _ pi p bi b hp hb hcontains
  have hoff : b.rxAddr + s * p.granularity - b.rxAddr = s * p.granularity := by omega
  have hmod : s * p.granularity % p.granularity = 0 := Nat.mul_mod_left s p.granularity
  have hdiv : s * p.granularity / p.granularity = s := Nat.mul_div_cancel s hg
  have husedS : b.used s = true := by
    have := hused 0 (by omega)
    simpa using this
  have hlen : spanLen b s = c :=
    firstStopLen_eq b.stop s c (b.slotCount - s) hnostop hstop hc1 (by omega)
  have hcount := blockUsedCount_free b s c hused hbound
  unfold release
  rw [hfound]
  dsimp only
  rw [hoff, hmod, hdiv, husedS, hlen]
  rw [if_neg (show ¬((0 : Nat) ≠ 0) from fun hx => hx rfl)]
  rw [if_neg (show ¬(true = false) from by simp)]
  refine ⟨rfl, ?_⟩
  split
  · rename_i hdestroy
    have hempty : blockEmpty (blockFree b s c) = true :=
      (Bool.and_eq_true _ _ |>.mp hdestroy).1
    have hzero : blockUsedCount (blockFree b s c) = 0 := by
      unfold blockEmpty at hempty
      simpa using hempty
    have h1 := sumPoolsUsed_set st.pools pi p
      ({ p with blocks := p.blocks.eraseIdx bi }) hp
    have h2 := sumBlocksUsed_erase p.blocks bi b hb
    dsimp only at h1
    unfold usedSlots
    dsimp only
    omega
  · have h1 := sumPoolsUsed_set st.pools pi p
      ({ p with blocks := (p.blocks.set bi (blockFree b s c)) }) hp
    have h2 := sumBlocksUsed_set p.blocks bi b (blockFree b s c) hb
    dsimp only at h1
    unfold usedSlots
    dsimp only
    omega

end JitModel

namespace JitModel

/-! ### Claim C2 -/

/-- Concrete parameters used by witnesses: a valid 4096-byte block size
and 64-byte granularity, no options. -/
def sampleParams : CreateParams :=
  { options := 0, blockSize := 4096, granularity := 64, fillPattern := 0 }

/-- Concrete initial allocator state used by witnesses. -/
def sampleState : JitState := initState sampleParams 1

/-- C2 counterexample: on a freshly constructed allocator (without
immediate-release), `alloc 64` succeeds, releasing the returned address
succeeds, but the aggregate free-slot count afterwards is 64 (the
retained empty block's slots), not its pre-allocation value 0. -/
theorem free_count_not_restored :
    (alloc sampleState 64).1 = .ok (0, 0) ∧
    (release (alloc sampleState 64).2 0).1 = .ok () ∧
    freeSlots sampleState = 0 ∧
    freeSlots (release (alloc sampleState 64).2 0).2 = 64 := by
  refine ⟨by decide, by decide, by decide, by decide⟩

/-- C2 (amended): releasing the address returned by a successful `alloc`
always succeeds and restores the aggregate used-slot count to its
pre-allocation value.  (The free-slot count is restored only when the
release destroys the block the allocation created; a newly created block
retained as the pool's empty spare adds its slots to the free count —
see the counterexample.) -/
theorem alloc_release_roundtrip (st : JitState) (n rx rw : Nat) (hwf : StateWF st)
    (h : (alloc st n).1 = .ok (rx, rw)) :
    (release (alloc st n).2 rx).1 = .ok () ∧
    usedSlots (release (alloc st n).2 rx).2 = usedSlots st := by
  have hfull : alloc st n = (.ok (rx, rw), (alloc st n).2) := by
    rw [← h]
  obtain ⟨pi, p, bi, b, s, c, hp, hb, hc, hrx, hrw, hc1, hbound, hused, hstop, hnostop,
    hcount⟩ := alloc_ok_span st (alloc st n).2 n rx rw hwf hfull
  have hwf' := alloc_wf st (alloc st n).2 n rx rw hwf hfull
  subst hrx
  have hrel := release_at_span (alloc st n).2 hwf' pi p bi b s c hp hb hc1 hbound
    hused hstop hnostop
  exact ⟨hrel.1, by omega⟩

/-- Witness for C2 (amended) at a concrete allocation. -/
theorem alloc_release_roundtrip_witness :
    (release (alloc sampleState 64).2 0).1 = .ok () ∧
    usedSlots (release (alloc sampleState 64).2 0).2 = usedSlots sampleState :=
  alloc_release_roundtrip sampleState 64 0 0
    (initState_wf sampleParams 1) (by decide)

end JitModel

namespace JitModel

/-! ### Claim C5 -/

theorem findOwner_none_of_all (st : JitState) (a : Nat)
    (h : ∀ (pi : Nat) (p : Pool) (bi : Nat) (b : Block),
      st.pools[pi]? = some p → p.blocks[bi]? = some b →
      blockContains p.granularity b a = false) : findOwner st a = none := by
  cases hfo : findOwner st a with
  | none => rfl
  | some q =>
    obtain ⟨pi, p, bi, b⟩ := q
    obtain ⟨hp, hb, hc⟩ := findOwner_spec st a pi p bi b hfo
    rw [h pi p bi b hp hb] at hc
    exact absurd hc (by simp)

theorem release_none (st : JitState) (a : Nat) (h : findOwner st a = none) :
    release st a = (.error .invalidPointer, st) := by
  unfold release
  rw [h]

theorem release_release (st st' : JitState) (a : Nat) (hwf : StateWF st)
    (h : release st a = (.ok (), st')) :
    release st' a = (.error .invalidPointer, st') := by
  obtain ⟨pi, p, bi, b, hown, halign, hused, hst⟩ := release_ok_inv st st' a h
  obtain ⟨hp, hb, hcontains⟩ := findOwner_spec st a pi p bi b hown
  have hwf' := release_wf st st' a hwf h
  have hpl := lt_length_of_getElem? st.pools pi p hp
  have hbl := lt_length_of_getElem? p.blocks bi b hb
  have hg : 0 < p.granularity := hwf.poolG pi p hp
  have hsd : (a - b.rxAddr) / p.granularity < b.slotCount := by
    by_contra hcon
    have := (hwf.blockWF pi p bi b hp hb).usedBound ((a - b.rxAddr) / p.granularity) (by omega)
    rw [this] at hused
    exact absurd hused (by simp)
  have hlen1 : 1 ≤ spanLen b ((a - b.rxAddr) / p.granularity) :=
    firstStopLen_pos b.stop ((a - b.rxAddr) / p.granularity)
      (b.slotCount - (a - b.rxAddr) / p.granularity) (by omega)
  subst hst
  split at hwf'
  · rename_i hdestroy
    simp only [hdestroy, eq_self_iff_true, if_true]
    have hnone : findOwner
        { st with pools := (st.pools.set pi ({ p with blocks := p.blocks.eraseIdx bi })) }
        a = none := by
      apply findOwner_none_of_all
      intro pi' p' bi' b' h1 h2
      dsimp only at h1
      rw [getElem?_set_if st.pools pi pi' _ hpl] at h1
      by_cases hcc : blockContains p'.granularity b' a = true
      case neg =>
        cases hv : blockContains p'.granularity b' a with
        | false => rfl
        | true => exact absurd hv hcc
      exfalso
      split at h1
      · rename_i hpi
        obtain rfl : _ = p' := by simpa using h1
        dsimp only at h2
        rw [getElem?_eraseIdx p.blocks bi bi'] at h2
        simp only [blockContains, decide_eq_true_eq] at hcontains hcc
        split at h2
        · rename_i hlt
          have hdisj := hwf.disj pi p bi b pi p bi' b' (hpi ▸ hp) hb (hpi ▸ hp) h2
            (by intro hcon; omega)
          omega
        · rename_i hlt
          have hdisj := hwf.disj pi p bi b pi p (bi' + 1) b' (hpi ▸ hp) hb (hpi ▸ hp) h2
            (by intro hcon; omega)
          omega
      · rename_i hpi
        simp only [blockContains, decide_eq_true_eq] at hcontains hcc
        have hdisj := hwf.disj pi p bi b pi' p' bi' b' hp hb h1 h2
          (by intro hcon; exact hpi hcon.1)
        omega
    exact release_none _ a hnone
  · rename_i hdestroy
    have hfb := eq_false_of_ne_true hdestroy
    simp only [hfb, Bool.false_eq_true, if_false]
    set s := (a - b.rxAddr) / p.granularity with hs
    set len := spanLen b s with hlen
    set bFree := blockFree b s len with hbf
    have hkl := lt_length_of_getElem? p.blocks bi b hb
    have hpnew : ({ st with pools := (st.pools.set pi
        ({ p with blocks := (p.blocks.set bi bFree) })) } : JitState).pools[pi]?
        = some ({ p with blocks := (p.blocks.set bi bFree) }) := by
      dsimp only
      rw [getElem?_set_if st.pools pi pi _ hpl]
      simp
    have hbnew : ({ p with blocks := (p.blocks.set bi bFree) } : Pool).blocks[bi]?
        = some bFree := by
      dsimp only
      rw [getElem?_set_if p.blocks bi bi _ hkl]
      simp
    have hcon2 : blockContains ({ p with blocks := (p.blocks.set bi bFree) } : Pool).granularity
        bFree a = true := hcontains
    have hfound := findOwner_eq _ hwf' a pi _ bi bFree hpnew hbnew hcon2
    unfold release
    rw [hfound]
    dsimp only
    have hoffeq : a - bFree.rxAddr = a - b.rxAddr := rfl
    rw [hoffeq]
    have hgeq : ({ p with blocks := (p.blocks.set bi bFree) } : Pool).granularity
        = p.granularity := rfl
    rw [hgeq]
    rw [if_neg (show ¬((a - b.rxAddr) % p.granularity ≠ 0) from by omega)]
    have husedF : bFree.used ((a - b.rxAddr) / p.granularity) = false := by
      rw [hbf]
      show setRun b.used s len false ((a - b.rxAddr) / p.granularity) = false
      rw [← hs]
      exact setRun_mem _ _ _ _ _ (Nat.le_refl s) (by omega)
    rw [husedF]
    simp

end JitModel

namespace JitModel

/-- C5 counterexample: after `alloc 128` the only live executable address
is 0, yet releasing address 64 — an aligned address interior to the span,
never returned by `alloc` — succeeds instead of failing with
invalid-pointer (4.1's `releaseSpan` only rejects a clear used bit). -/
theorem interior_release_succeeds :
    (runG (initGhost sampleParams 1) [Op.alloc 128]).live = [(0, 128)] ∧
    (release (runG (initGhost sampleParams 1) [Op.alloc 128]).st 64).1 = .ok () := by
  exact ⟨by decide, by decide⟩

/-- C5 (amended): releasing an address contained in no live block fails
with invalid-pointer and leaves the state unchanged; and immediately
re-releasing an address whose release just succeeded fails with
invalid-pointer and leaves the state unchanged.  (An aligned address in
the interior of a live span is rejected only if its slot is free; see
the counterexample.) -/
theorem release_invalid_pointer (st : JitState) (a : Nat) (hwf : StateWF st) :
    (findOwner st a = none → release st a = (.error .invalidPointer, st)) ∧
    (∀ st', release st a = (.ok (), st') →
      release st' a = (.error .invalidPointer, st')) :=
  ⟨fun h => release_none st a h,
   fun st' h => release_release st st' a hwf h⟩

/-- Witness for C5 (amended): on the fresh sample allocator no block
contains address 5, and the theorem applies. -/
theorem release_invalid_pointer_witness :
    findOwner sampleState 5 = none ∧
    ((findOwner sampleState 5 = none →
        release sampleState 5 = (.error .invalidPointer, sampleState)) ∧
     (∀ st', release sampleState 5 = (.ok (), st') →
        release st' 5 = (.error .invalidPointer, st'))) :=
  ⟨by rfl, release_invalid_pointer sampleState 5 (initState_wf sampleParams 1)⟩

/-! ### Claim C6 -/

theorem shrink_at_span (st : JitState) (hwf : StateWF st) (pi : Nat) (p : Pool) (bi : Nat)
    (b : Block) (s c : Nat) (hp : st.pools[pi]? = some p) (hb : p.blocks[bi]? = some b)
    (hc1 : 1 ≤ c) (hbound : s + c ≤ b.slotCount)
    (hused : ∀ j, j < c → b.used (s + j) = true)
    (hstop : b.stop (s + c - 1) = true)
    (hnostop : ∀ j, j + 1 < c → b.stop (s + j) = false)
    (k : Nat) (hk1 : 1 ≤ k) (hkc : roundUpSlots k p.granularity ≤ c) :
    shrink st (b.rxAddr + s * p.granularity) k =
      (.ok (), { st with pools := (st.pools.set pi ({ p with blocks :=
        (p.blocks.set bi (blockShrink b s c (roundUpSlots k p.granularity))) })) }) := by
  have hg : 0 < p.granularity := hwf.poolG pi p hp
  have hcontains := span_contains p.granularity b s c hg hc1 hbound
  have hfound := findOwner_eq st hwf _ pi p bi b hp hb hcontains
  have hoff : b.rxAddr + s * p.granularity - b.rxAddr = s * p.granularity := by omega
  have hmod : s * p.granularity % p.granularity = 0 := Nat.mul_mod_left s p.granularity
  have hdiv : s * p.granularity / p.granularity = s := Nat.mul_div_cancel s hg
  have husedS : b.used s = true := by
    have := hused 0 (by omega)
    simpa using this
  have hlen : spanLen b s = c :=
    firstStopLen_eq b.stop s c (b.slotCount - s) hnostop hstop hc1 (by omega)
  have hall : allUsedRun b.used s c = true := (allUsedRun_iff b.used s c).mpr hused
  unfold shrink
  rw [if_neg (show ¬(k = 0) from by omega)]
  rw [hfound]
  dsimp only
  rw [hoff, hmod, hdiv, husedS, hlen, hall]
  rw [if_neg (show ¬((0 : Nat) ≠ 0) from fun hx => hx rfl)]
  rw [if_neg (show ¬(true = false) from by simp)]
  rw [if_neg (show ¬(c < roundUpSlots k p.granularity) from by omega)]
  rw [if_neg (show ¬(true = false) from by simp)]

/-- C6: shrinking a live allocation at address `a` from size `n` to any
size `k` with `1 ≤ k ≤ n` succeeds, the allocation remains live at the
same executable address `a` (now spanning `roundUpSlots k g` slots — no
data is moved), and a subsequent release of `a` succeeds. -/
theorem shrink_preserves_address (st : JitState) (a n k : Nat) (hwf : StateWF st)
    (hspan : SpanAt st a n) (hk1 : 1 ≤ k) (hkn : k ≤ n) :
    (shrink st a k).1 = .ok () ∧
    SpanAt (shrink st a k).2 a k ∧
    (release (shrink st a k).2 a).1 = .ok () := by
  obtain ⟨pi, p, bi, b, s, hp, hb, hd, ha, hn1⟩ := hspan
  have hg : 0 < p.granularity := hwf.poolG pi p hp
  have hkc : roundUpSlots k p.granularity ≤ roundUpSlots n p.granularity :=
    roundUpSlots_mono k n p.granularity hkn
  have hc1' : 1 ≤ roundUpSlots k p.granularity := roundUpSlots_pos k p.granularity hk1 hg
  have heval := shrink_at_span st hwf pi p bi b s (roundUpSlots n p.granularity) hp hb
    hd.hc hd.hb hd.hused hd.hstop hd.hnostop k hk1 hkc
  have hpl := lt_length_of_getElem? st.pools pi p hp
  have hbl := lt_length_of_getElem? p.blocks bi b hb
  subst ha
  rw [heval]
  have hwf2 := shrink_wf st _ (b.rxAddr + s * p.granularity) k hwf heval
  have hboundS := hd.hb
  have hcS := hd.hc
  have hpnew : ({ st with pools := (st.pools.set pi ({ p with blocks :=
      (p.blocks.set bi (blockShrink b s (roundUpSlots n p.granularity)
        (roundUpSlots k p.granularity))) })) } : JitState).pools[pi]? =
      some ({ p with blocks := (p.blocks.set bi (blockShrink b s
        (roundUpSlots n p.granularity) (roundUpSlots k p.granularity))) }) := by
    dsimp only
    rw [getElem?_set_if st.pools pi pi _ hpl]
    simp
  have hbnew : ({ p with blocks := (p.blocks.set bi (blockShrink b s
      (roundUpSlots n p.granularity) (roundUpSlots k p.granularity))) } : Pool).blocks[bi]? =
      some (blockShrink b s (roundUpSlots n p.granularity) (roundUpSlots k p.granularity)) := by
    dsimp only
    rw [getElem?_set_if p.blocks bi bi _ hbl]
    simp
  have hdata : SpanData (blockShrink b s (roundUpSlots n p.granularity)
      (roundUpSlots k p.granularity)) s (roundUpSlots k p.granularity) := by
    constructor
    · exact hc1'
    · show s + roundUpSlots k p.granularity ≤ b.slotCount
      omega
    · intro j hj
      show setRun b.used (s + roundUpSlots k p.granularity)
        (roundUpSlots n p.granularity - roundUpSlots k p.granularity) false (s + j) = true
      rw [setRun_notmem _ _ _ _ _ (by omega)]
      exact hd.hused j (by omega)
    · show setBit (setRun b.stop (s + roundUpSlots k p.granularity)
        (roundUpSlots n p.granularity - roundUpSlots k p.granularity) false)
        (s + roundUpSlots k p.granularity - 1) true
        (s + roundUpSlots k p.granularity - 1) = true
      exact setBit_self _ _ _
    · intro j hj
      show setBit (setRun b.stop (s + roundUpSlots k p.granularity)
        (roundUpSlots n p.granularity - roundUpSlots k p.granularity) false)
        (s + roundUpSlots k p.granularity - 1) true (s + j) = false
      rw [setBit_other _ _ _ _ (by omega)]
      rw [setRun_notmem _ _ _ _ _ (by omega)]
      exact hd.hnostop j (by omega)
    · by_cases hs0 : s = 0
      · exact Or.inl hs0
      · rcases hd.hstart with h0 | hu | hsp
        · exact Or.inl h0
        · refine Or.inr (Or.inl ?_)
          show setRun b.used (s + roundUpSlots k p.granularity)
            (roundUpSlots n p.granularity - roundUpSlots k p.granularity) false (s - 1) = false
          rw [setRun_notmem _ _ _ _ _ (by omega)]
          exact hu
        · refine Or.inr (Or.inr ?_)
          show setBit (setRun b.stop (s + roundUpSlots k p.granularity)
            (roundUpSlots n p.granularity - roundUpSlots k p.granularity) false)
            (s + roundUpSlots k p.granularity - 1) true (s - 1) = true
          rw [setBit_other _ _ _ _ (by omega)]
          rw [setRun_notmem _ _ _ _ _ (by omega)]
          exact hsp
  refine ⟨rfl, ?_, ?_⟩
  · exact ⟨pi, _, bi, _, s, hpnew, hbnew, hdata, rfl, hk1⟩
  · have hrel := release_at_span _ hwf2 pi _ bi _ s (roundUpSlots k p.granularity)
      hpnew hbnew hdata.hc hdata.hb hdata.hused hdata.hstop hdata.hnostop
    exact hrel.1

end JitModel

namespace JitModel

instance (c : Nat) (P : Nat → Prop) [DecidablePred P] : Decidable (∀ j, j + 1 < c → P j) :=
  decidable_of_iff (∀ j, j < c - 1 → P j)
    (by constructor <;> intro h j hj <;> exact h j (by omega))

/-- Witness for C6 at a concrete allocation: allocate 100 bytes, shrink
to 60, release. -/
theorem shrink_preserves_address_witness :
    (shrink (alloc sampleState 100).2 0 60).1 = .ok () ∧
    SpanAt (shrink (alloc sampleState 100).2 0 60).2 0 60 ∧
    (release (shrink (alloc sampleState 100).2 0 60).2 0).1 = .ok () :=
  shrink_preserves_address (alloc sampleState 100).2 0 100 60
    (alloc_wf sampleState (alloc sampleState 100).2 100 0 0 (initState_wf sampleParams 1)
      (by rfl))
    ⟨0, _, 0, _, 0, rfl, rfl,
      ⟨by decide, by decide, by decide, by decide, by decide, Or.inl rfl⟩,
      by decide, by decide⟩
    (by decide) (by decide)

/-! ### Claim C7 -/

/-- C7: a successful allocation returns equal executable and writable
addresses when dual mapping is not enabled; in general the two addresses
are the same offset into the executable and writable views of one block
(two views of the same bytes, the writable view sitting at the
dual-mapping offset). -/
theorem alloc_address_pair (st : JitState) (n rx rw : Nat) (hwf : StateWF st)
    (h : (alloc st n).1 = .ok (rx, rw)) :
    (st.impl.options &&& kOptionUseDualMapping = 0 → rx = rw) ∧
    (∃ (pi : Nat) (p : Pool) (bi : Nat) (b : Block) (off : Nat),
      (alloc st n).2.pools[pi]? = some p ∧ p.blocks[bi]? = some b ∧
      off < b.slotCount * p.granularity ∧ rx = b.rxAddr + off ∧ rw = b.rwAddr + off ∧
      b.rwAddr = b.rxAddr +
        (if dualMappingOpt st.impl then b.slotCount * p.granularity else 0)) := by
  have hfull : alloc st n = (.ok (rx, rw), (alloc st n).2) := by
    rw [← h]
  obtain ⟨pi, p, bi, b, s, c, hp, hb, hc, hrx, hrw, hc1, hbound, hused, hstop, hnostop,
    hcount⟩ := alloc_ok_span st (alloc st n).2 n rx rw hwf hfull
  have hwf' := alloc_wf st (alloc st n).2 n rx rw hwf hfull
  have hview := (hwf'.blockWF pi p bi b hp hb).rwView
  have himp : ((alloc st n).2).impl = st.impl := alloc_impl_eq st n
  rw [himp] at hview
  have hoff : s * p.granularity < b.slotCount * p.granularity := by
    have h2 : (s + 1) * p.granularity ≤ b.slotCount * p.granularity :=
      Nat.mul_le_mul_right p.granularity (by omega)
    have h3 : (s + 1) * p.granularity = s * p.granularity + p.granularity := by ring
    have hg : 0 < p.granularity := by
      by_contra hcon
      have hz : p.granularity = 0 := by omega
      rw [hz] at hc
      unfold roundUpSlots at hc
      simp at hc
      omega
    omega
  constructor
  · intro hopt
    have hdual : dualMappingOpt st.impl = false := by
      unfold dualMappingOpt
      simp [hopt]
    rw [hdual] at hview
    simp only [Bool.false_eq_true, if_false] at hview
    rw [hrx, hrw, hview]
    omega
  · exact ⟨pi, p, bi, b, s * p.granularity, hp, hb, hoff, hrx, hrw, hview⟩

/-- Witness for C7 at a concrete allocation without dual mapping. -/
theorem alloc_address_pair_witness :
    ((sampleState.impl.options &&& kOptionUseDualMapping = 0 → (0 : Nat) = 0) ∧
     (∃ (pi : Nat) (p : Pool) (bi : Nat) (b : Block) (off : Nat),
       (alloc sampleState 64).2.pools[pi]? = some p ∧ p.blocks[bi]? = some b ∧
       off < b.slotCount * p.granularity ∧ 0 = b.rxAddr + off ∧ 0 = b.rwAddr + off ∧
       b.rwAddr = b.rxAddr +
         (if dualMappingOpt sampleState.impl then b.slotCount * p.granularity else 0))) :=
  alloc_address_pair sampleState 64 0 0 (initState_wf sampleParams 1) (by rfl)

end JitModel

namespace JitModel

/-! ### Ghost invariant for claim C1 -/

/-- Every maximal run of used slots ends with a stop bit, in every block
of the state (spec invariant (b): stop bits partition used regions into
spans without ambiguity). -/
def RunEndsAll (st : JitState) : Prop :=
  ∀ (pi : Nat) (p : Pool) (bi : Nat) (b : Block),
    st.pools[pi]? = some p → p.blocks[bi]? = some b →
    ∀ i, b.used i = true → b.used (i + 1) = false → b.stop i = true

/-- The ghost live list is faithful: distinct addresses, every live pair
is a span in the state, and used runs end with stop bits. -/
def LiveInv (st : JitState) (live : List (Nat × Nat)) : Prop :=
  (live.map Prod.fst).Nodup ∧ (∀ pr ∈ live, SpanAt st pr.1 pr.2) ∧ RunEndsAll st

/-- The ghost invariant: the state is well-formed, and while usage has
been proper the live list is faithful. -/
def GInv (g : Ghost) : Prop := StateWF g.st ∧ (g.ok = true → LiveInv g.st g.live)

theorem setRun_true_mono (f : Nat → Bool) (s c i : Nat) (h : f i = true) :
    setRun f s c true i = true := by
  by_cases hm : s ≤ i ∧ i < s + c
  · exact setRun_mem _ _ _ _ _ hm.1 hm.2
  · rw [setRun_notmem _ _ _ _ _ (by omega)]
    exact h

theorem setBit_true_mono (f : Nat → Bool) (j i : Nat) (h : f i = true) :
    setBit f j true i = true := by
  by_cases he : i = j
  · subst he
    exact setBit_self _ _ _
  · rw [setBit_other _ _ _ _ he]
    exact h

theorem byte_to_slot_disj (rx g s1 c1 s2 c2 : Nat) (hg : 0 < g)
    (h : rx + s1 * g + c1 * g ≤ rx + s2 * g ∨ rx + s2 * g + c2 * g ≤ rx + s1 * g) :
    s1 + c1 ≤ s2 ∨ s2 + c2 ≤ s1 := by
  rcases h with h | h
  · left
    have h2 : (s1 + c1) * g ≤ s2 * g := by
      rw [Nat.add_mul]
      omega
    exact Nat.le_of_mul_le_mul_right h2 hg
  · right
    have h2 : (s2 + c2) * g ≤ s1 * g := by
      rw [Nat.add_mul]
      omega
    exact Nat.le_of_mul_le_mul_right h2 hg

/-- A span is unaffected by marking a disjoint free run (the free run
cannot intersect the span's used slots). -/
theorem spanData_mark (b : Block) (s c s' c' : Nat)
    (hd : SpanData b s' c') (hfree : ∀ j, j < c → b.used (s + j) = false)
    (hc1 : 1 ≤ c) :
    SpanData (blockAlloc b s c) s' c' := by
  have hnotin : ∀ j, j < c' → ¬(s ≤ s' + j ∧ s' + j < s + c) := by
    intro j hj hm
    have h1 := hd.hused j hj
    have h2 := hfree (s' + j - s) (by omega)
    have e : s + (s' + j - s) = s' + j := by omega
    rw [e] at h2
    rw [h1] at h2
    exact absurd h2 (by simp)
  constructor
  · exact hd.hc
  · exact hd.hb
  · intro j hj
    exact setRun_true_mono _ _ _ _ (hd.hused j hj)
  · exact setBit_true_mono _ _ _ hd.hstop
  · intro j hj
    show setBit b.stop (s + c - 1) true (s' + j) = false
    have hne : s' + j ≠ s + c - 1 := by
      intro he
      exact hnotin j (by omega) (by omega)
    rw [setBit_other _ _ _ _ hne]
    exact hd.hnostop j hj
  · rcases hd.hstart with h0 | hu | hsp
    · exact Or.inl h0
    · by_cases hs0 : s' = 0
      · exact Or.inl hs0
      · by_cases hm : s ≤ s' - 1 ∧ s' - 1 < s + c
        · by_cases he : s' - 1 = s + c - 1
          · refine Or.inr (Or.inr ?_)
            show setBit b.stop (s + c - 1) true (s' - 1) = true
            rw [he]
            exact setBit_self _ _ _
          · exfalso
            have h1 := hd.hused 0 (by have := hd.hc; omega)
            have h2 := hfree (s' - s) (by omega)
            have e : s + (s' - s) = s' := by omega
            rw [e] at h2
            rw [Nat.add_zero] at h1
            rw [h1] at h2
            exact absurd h2 (by simp)
        · refine Or.inr (Or.inl ?_)
          show setRun b.used s c true (s' - 1) = false
          rw [setRun_notmem _ _ _ _ _ (by omega)]
          exact hu
    · refine Or.inr (Or.inr ?_)
      exact setBit_true_mono _ _ _ hsp

/-- A span is unaffected by clearing a slot-disjoint run. -/
theorem spanData_clear (b : Block) (s c s' c' : Nat)
    (hd : SpanData b s' c') (hdisj : s + c ≤ s' ∨ s' + c' ≤ s) :
    SpanData (blockFree b s c) s' c' := by
  constructor
  · exact hd.hc
  · exact hd.hb
  · intro j hj
    show setRun b.used s c false (s' + j) = true
    rw [setRun_notmem _ _ _ _ _ (by omega)]
    exact hd.hused j hj
  · show setRun b.stop s c false (s' + c' - 1) = true
    rw [setRun_notmem _ _ _ _ _ (by have := hd.hc; omega)]
    exact hd.hstop
  · intro j hj
    show setRun b.stop s c false (s' + j) = false
    by_cases hm : s ≤ s' + j ∧ s' + j < s + c
    · exact setRun_mem _ _ _ _ _ hm.1 hm.2
    · rw [setRun_notmem _ _ _ _ _ (by omega)]
      exact hd.hnostop j hj
  · rcases hd.hstart with h0 | hu | hsp
    · exact Or.inl h0
    · refine Or.inr (Or.inl ?_)
      show setRun b.used s c false (s' - 1) = false
      by_cases hm : s ≤ s' - 1 ∧ s' - 1 < s + c
      · exact setRun_mem _ _ _ _ _ hm.1 hm.2
      · rw [setRun_notmem _ _ _ _ _ (by omega)]
        exact hu
    · by_cases hm : s ≤ s' - 1 ∧ s' - 1 < s + c
      · refine Or.inr (Or.inl ?_)
        show setRun b.used s c false (s' - 1) = false
        exact setRun_mem _ _ _ _ _ hm.1 hm.2
      · refine Or.inr (Or.inr ?_)
        show setRun b.stop s c false (s' - 1) = true
        rw [setRun_notmem _ _ _ _ _ (by omega)]
        exact hsp

/-- A span is unaffected by shrinking a span whose full original region
is slot-disjoint from it. -/
theorem spanData_shrink_other (b : Block) (s c cNew s' c' : Nat)
    (hd : SpanData b s' c') (hc1 : 1 ≤ cNew) (hcc : cNew ≤ c)
    (hdisj : s + c ≤ s' ∨ s' + c' ≤ s) :
    SpanData (blockShrink b s c cNew) s' c' := by
  have hbitne : ∀ j, j < c' → s' + j ≠ s + cNew - 1 := by
    intro j hj he
    omega
  constructor
  · exact hd.hc
  · exact hd.hb
  · intro j hj
    show setRun b.used (s + cNew) (c - cNew) false (s' + j) = true
    rw [setRun_notmem _ _ _ _ _ (by omega)]
    exact hd.hused j hj
  · show setBit (setRun b.stop (s + cNew) (c - cNew) false) (s + cNew - 1) true
      (s' + c' - 1) = true
    have := hd.hc
    rw [setBit_other _ _ _ _ (by omega)]
    rw [setRun_notmem _ _ _ _ _ (by omega)]
    exact hd.hstop
  · intro j hj
    show setBit (setRun b.stop (s + cNew) (c - cNew) false) (s + cNew - 1) true
      (s' + j) = false
    rw [setBit_other _ _ _ _ (hbitne j (by omega))]
    rw [setRun_notmem _ _ _ _ _ (by omega)]
    exact hd.hnostop j hj
  · rcases hd.hstart with h0 | hu | hsp
    · exact Or.inl h0
    · refine Or.inr (Or.inl ?_)
      show setRun b.used (s + cNew) (c - cNew) false (s' - 1) = false
      by_cases hm : s + cNew ≤ s' - 1 ∧ s' - 1 < s + cNew + (c - cNew)
      · exact setRun_mem _ _ _ _ _ hm.1 hm.2
      · rw [setRun_notmem _ _ _ _ _ (by omega)]
        exact hu
    · by_cases he : s' - 1 = s + cNew - 1
      · refine Or.inr (Or.inr ?_)
        show setBit (setRun b.stop (s + cNew) (c - cNew) false) (s + cNew - 1) true
          (s' - 1) = true
        rw [he]
        exact setBit_self _ _ _
      · by_cases hm : s + cNew ≤ s' - 1 ∧ s' - 1 < s + cNew + (c - cNew)
        · refine Or.inr (Or.inl ?_)
          show setRun b.used (s + cNew) (c - cNew) false (s' - 1) = false
          exact setRun_mem _ _ _ _ _ hm.1 hm.2
        · refine Or.inr (Or.inr ?_)
          show setBit (setRun b.stop (s + cNew) (c - cNew) false) (s + cNew - 1) true
            (s' - 1) = true
          rw [setBit_other _ _ _ _ he]
          rw [setRun_notmem _ _ _ _ _ (by omega)]
          exact hsp

/-- The shrunk span itself, as established for claim C6. -/
theorem spanData_shrink_self (b : Block) (s c cNew : Nat)
    (hd : SpanData b s c) (hc1 : 1 ≤ cNew) (hcc : cNew ≤ c) :
    SpanData (blockShrink b s c cNew) s cNew := by
  constructor
  · exact hc1
  · have := hd.hb
    show s + cNew ≤ b.slotCount
    omega
  · intro j hj
    show setRun b.used (s + cNew) (c - cNew) false (s + j) = true
    rw [setRun_notmem _ _ _ _ _ (by omega)]
    exact hd.hused j (by omega)
  · show setBit (setRun b.stop (s + cNew) (c - cNew) false) (s + cNew - 1) true
      (s + cNew - 1) = true
    exact setBit_self _ _ _
  · intro j hj
    show setBit (setRun b.stop (s + cNew) (c - cNew) false) (s + cNew - 1) true
      (s + j) = false
    rw [setBit_other _ _ _ _ (by omega)]
    rw [setRun_notmem _ _ _ _ _ (by omega)]
    exact hd.hnostop j (by omega)
  · by_cases hs0 : s = 0
    · exact Or.inl hs0
    · rcases hd.hstart with h0 | hu | hsp
      · exact Or.inl h0
      · refine Or.inr (Or.inl ?_)
        show setRun b.used (s + cNew) (c - cNew) false (s - 1) = false
        rw [setRun_notmem _ _ _ _ _ (by omega)]
        exact hu
      · refine Or.inr (Or.inr ?_)
        show setBit (setRun b.stop (s + cNew) (c - cNew) false) (s + cNew - 1) true
          (s - 1) = true
        rw [setBit_other _ _ _ _ (by omega)]
        rw [setRun_notmem _ _ _ _ _ (by omega)]
        exact hsp

end JitModel

namespace JitModel

theorem spanAt_disjoint (st : JitState) (hwf : StateWF st) (a1 n1 a2 n2 : Nat)
    (h1 : SpanAt st a1 n1) (h2 : SpanAt st a2 n2) (hne : a1 ≠ a2) :
    spansDisjoint (a1, n1) (a2, n2) := by
  obtain ⟨pi1, p1, bi1, b1, s1, hp1, hb1, hd1, ha1, hn1⟩ := h1
  obtain ⟨pi2, p2, bi2, b2, s2, hp2, hb2, hd2, ha2, hn2⟩ := h2
  have hcore := spans_disjoint_core st hwf pi1 p1 bi1 b1 s1 _ pi2 p2 bi2 b2 s2 _
    hp1 hb1 hp2 hb2 hd1 hd2 (by rw [← ha1, ← ha2]; exact hne)
  have hg1 := hwf.poolG pi1 p1 hp1
  have hg2 := hwf.poolG pi2 p2 hp2
  have hle1 : n1 ≤ roundUpSlots n1 p1.granularity * p1.granularity :=
    roundUpSlots_le_mul n1 p1.granularity hg1
  have hle2 : n2 ≤ roundUpSlots n2 p2.granularity * p2.granularity :=
    roundUpSlots_le_mul n2 p2.granularity hg2
  unfold spansDisjoint
  dsimp only
  subst ha1
  subst ha2
  rcases hcore with h | h
  · left
    omega
  · right
    omega

theorem pairwise_ne_of_nodup_fst (l : List (Nat × Nat))
    (h : (l.map Prod.fst).Nodup) :
    l.Pairwise (fun x y => x.1 ≠ y.1) := by
  induction l with
  | nil => exact List.Pairwise.nil
  | cons hd rest ih =>
    simp only [List.map_cons, List.nodup_cons] at h
    refine List.Pairwise.cons ?_ (ih h.2)
    intro y hy heq
    exact h.1 (heq ▸ List.mem_map_of_mem Prod.fst hy)

theorem live_pairwise_disjoint (st : JitState) (live : List (Nat × Nat))
    (hwf : StateWF st) (hli : LiveInv st live) :
    live.Pairwise spansDisjoint := by
  obtain ⟨hnd, hsp, _⟩ := hli
  have hne := pairwise_ne_of_nodup_fst live hnd
  refine List.Pairwise.imp_of_mem ?_ hne
  intro x y hx hy hxy
  have h1 := hsp x hx
  have h2 := hsp y hy
  have := spanAt_disjoint st hwf x.1 x.2 y.1 y.2 h1 h2 hxy
  unfold spansDisjoint at this ⊢
  exact this

theorem located_spans_cases (st : JitState) (hwf : StateWF st)
    (pi : Nat) (p : Pool) (bi : Nat) (b : Block) (s c : Nat)
    (pi' : Nat) (p' : Pool) (bi' : Nat) (b' : Block) (s' c' : Nat)
    (hp : st.pools[pi]? = some p) (hb : p.blocks[bi]? = some b)
    (hp' : st.pools[pi']? = some p') (hb' : p'.blocks[bi']? = some b')
    (hd : SpanData b s c) (hd' : SpanData b' s' c')
    (hne : b.rxAddr + s * p.granularity ≠ b'.rxAddr + s' * p'.granularity) :
    (¬(pi' = pi ∧ bi' = bi)) ∨
    (pi' = pi ∧ bi' = bi ∧ p' = p ∧ b' = b ∧ (s + c ≤ s' ∨ s' + c' ≤ s)) := by
  by_cases hsame : pi' = pi ∧ bi' = bi
  · right
    obtain ⟨he1, he2⟩ := hsame
    subst he1
    subst he2
    rw [hp] at hp'
    have hpe : p = p' := by simpa using hp'
    subst hpe
    rw [hb] at hb'
    have hbe : b = b' := by simpa using hb'
    subst hbe
    have hsne : s ≠ s' := by
      intro he
      rw [he] at hne
      exact hne rfl
    exact ⟨rfl, rfl, rfl, rfl, spanData_slot_disj b s c s' c' hd hd' hsne⟩
  · exact Or.inl hsame

end JitModel

namespace JitModel

theorem lookup_set_self {α : Type} (l : List α) (i : Nat) (x : α) (h : i < l.length) :
    (l.set i x)[i]? = some x := (getElem?_set_if l i i x h).trans (if_pos rfl)

theorem lookup_set_other {α : Type} (l : List α) (i j : Nat) (x : α)
    (h : i < l.length) (hne : ¬i = j) :
    (l.set i x)[j]? = l[j]? := (getElem?_set_if l i j x h).trans (if_neg hne)

theorem countTrue_pos_of_true (f : Nat → Bool) (n i : Nat) (hi : i < n)
    (h : f i = true) : 0 < countTrue f n := by
  induction n with
  | zero => omega
  | succ m ih =>
    simp only [countTrue]
    by_cases he : i = m
    · subst he
      rw [if_pos h]
      omega
    · have := ih (by omega)
      split <;> omega

/-- A successful allocation keeps the ghost live list faithful and
extends it with the returned span. -/
theorem liveInv_alloc (st st' : JitState) (live : List (Nat × Nat)) (n rx rw : Nat)
    (hwf : StateWF st) (hli : LiveInv st live)
    (h : alloc st n = (.ok (rx, rw), st')) :
    LiveInv st' ((rx, n) :: live) := by
  obtain ⟨hnd, hsp, hre⟩ := hli
  obtain ⟨hn, p, hp, hcase⟩ := alloc_ok_inv st st' n rx rw h
  have hg : 0 < p.granularity := hwf.poolG _ p hp
  have hpl := lt_length_of_getElem? st.pools _ p hp
  obtain ⟨c, hc⟩ : ∃ c, roundUpSlots n p.granularity = c := ⟨_, rfl⟩
  have hc1 : 1 ≤ c := by
    rw [← hc]
    exact roundUpSlots_pos n p.granularity hn hg
  rcases hcase with ⟨i, b, s, hb, hfs, hrx, hrw, hst⟩ |
    ⟨sc, hsc, hfuel, hrx, hrw, hscan, hst⟩
  · -- span found in an existing block
    rw [hc] at hfs hst
    obtain ⟨hfree, hbound⟩ := findFreeSpan_spec b.used b.slotCount c s hfs
    have hbl := lt_length_of_getElem? p.blocks i b hb
    have hw := hwf.blockWF _ p i b hp hb
    have hPools : st'.pools = st.pools.set (poolIdFor st.impl n)
        ({ p with
            blocks := (p.blocks.set i (blockAlloc b s c))
            cursor := i + 1 }) := by rw [hst]
    have hdNew : SpanData (blockAlloc b s c) s c := by
      constructor
      · exact hc1
      · exact hbound
      · intro j hj
        exact setRun_mem _ _ _ _ _ (by omega) (by omega)
      · exact setBit_self _ _ _
      · intro j hj
        show setBit b.stop (s + c - 1) true (s + j) = false
        rw [setBit_other _ _ _ _ (by omega)]
        cases hx : b.stop (s + j) with
        | false => rfl
        | true =>
          have hy := hw.stopUsed (s + j) hx
          have hz := hfree j (by omega)
          rw [hz] at hy
          exact absurd hy (by simp)
      · by_cases hs0 : s = 0
        · exact Or.inl hs0
        · cases hu : b.used (s - 1) with
          | true =>
            refine Or.inr (Or.inr ?_)
            have hun : b.used (s - 1 + 1) = false := by
              have he : s - 1 + 1 = s := by omega
              rw [he]
              have := hfree 0 (by omega)
              simpa using this
            have hstp := hre _ p i b hp hb (s - 1) hu hun
            exact setBit_true_mono _ _ _ hstp
          | false =>
            refine Or.inr (Or.inl ?_)
            show setRun b.used s c true (s - 1) = false
            rw [setRun_notmem _ _ _ _ _ (by omega)]
            exact hu
    refine ⟨?_, ?_, ?_⟩
    · -- Nodup: the fresh address is not a live address
      simp only [List.map_cons, List.nodup_cons]
      refine ⟨?_, hnd⟩
      intro hmem
      obtain ⟨pr, hpr, hfst⟩ := List.mem_map.mp hmem
      obtain ⟨pi', p', bi', b', s', hp', hb', hd', ha', hm⟩ := hsp pr hpr
      have hg' : 0 < p'.granularity := hwf.poolG pi' p' hp'
      by_cases hsame : pi' = poolIdFor st.impl n ∧ bi' = i
      · obtain ⟨he1, he2⟩ := hsame
        subst he1
        subst he2
        rw [hp] at hp'
        have hppe : p = p' := by simpa using hp'
        subst hppe
        rw [hb] at hb'
        have hbbe : b = b' := by simpa using hb'
        subst hbbe
        rw [hfst, hrx] at ha'
        have heq : s' * p.granularity = s * p.granularity := by omega
        have hse : s' = s := Nat.eq_of_mul_eq_mul_right hg heq
        have h1 := hd'.hused 0 (by have := hd'.hc; omega)
        have h2 := hfree 0 (by omega)
        rw [hse] at h1
        rw [h2] at h1
        exact absurd h1 (by simp)
      · have hdisj := hwf.disj pi' p' bi' b' (poolIdFor st.impl n) p i b hp' hb' hp hb hsame
        have hb1 : s' + 1 ≤ b'.slotCount := by
          have hx := hd'.hb
          have hy := hd'.hc
          omega
        have hm1 : (s' + 1) * p'.granularity ≤ b'.slotCount * p'.granularity :=
          Nat.mul_le_mul_right _ hb1
        have hm2 : (s + 1) * p.granularity ≤ b.slotCount * p.granularity :=
          Nat.mul_le_mul_right _ (by omega)
        rw [Nat.add_mul] at hm1 hm2
        rw [hfst, hrx] at ha'
        omega
    · -- every pair of the extended list is a span of the new state
      intro pr hpr
      rcases List.mem_cons.mp hpr with he | hmem
      · subst he
        refine ⟨poolIdFor st.impl n,
          ({ p with
              blocks := (p.blocks.set i (blockAlloc b s c))
              cursor := i + 1 }),
          i, blockAlloc b s c, s, ?_, ?_, ?_, ?_, hn⟩
        · rw [hPools]
          exact lookup_set_self st.pools _ _ hpl
        · exact lookup_set_self p.blocks i (blockAlloc b s c) hbl
        · show SpanData (blockAlloc b s c) s (roundUpSlots n p.granularity)
          rw [hc]
          exact hdNew
        · exact hrx
      · obtain ⟨pi', p', bi', b', s', hp', hb', hd', ha', hm⟩ := hsp pr hmem
        by_cases hpe : pi' = poolIdFor st.impl n
        · subst hpe
          rw [hp] at hp'
          have hppe : p = p' := by simpa using hp'
          subst hppe
          by_cases hbe : bi' = i
          · subst hbe
            rw [hb] at hb'
            have hbbe : b = b' := by simpa using hb'
            subst hbbe
            refine ⟨poolIdFor st.impl n,
              ({ p with
                  blocks := (p.blocks.set bi' (blockAlloc b s c))
                  cursor := bi' + 1 }),
              bi', blockAlloc b s c, s', ?_, ?_, ?_, ha', hm⟩
            · rw [hPools]
              exact lookup_set_self st.pools _ _ hpl
            · exact lookup_set_self p.blocks bi' (blockAlloc b s c) hbl
            · show SpanData (blockAlloc b s c) s' (roundUpSlots pr.2 p.granularity)
              exact spanData_mark b s c s' _ hd' hfree hc1
          · refine ⟨poolIdFor st.impl n,
              ({ p with
                  blocks := (p.blocks.set i (blockAlloc b s c))
                  cursor := i + 1 }),
              bi', b', s', ?_, ?_, hd', ha', hm⟩
            · rw [hPools]
              exact lookup_set_self st.pools _ _ hpl
            · show (p.blocks.set i (blockAlloc b s c))[bi']? = some b'
              rw [lookup_set_other p.blocks i bi' _ hbl (fun he => hbe he.symm)]
              exact hb'
        · refine ⟨pi', p', bi', b', s', ?_, hb', hd', ha', hm⟩
          rw [hPools]
          rw [lookup_set_other st.pools _ pi' _ hpl (fun he => hpe he.symm)]
          exact hp'
    · -- stop bits still delimit every used run
      intro pi' p' bi' b' hp' hb' i0 hu0 hu1
      rw [hPools] at hp'
      rw [getElem?_set_if st.pools _ _ _ hpl] at hp'
      by_cases hpe : poolIdFor st.impl n = pi'
      · rw [if_pos hpe] at hp'
        obtain rfl := Option.some.inj hp'
        have hb2 : (p.blocks.set i (blockAlloc b s c))[bi']? = some b' := hb'
        rw [getElem?_set_if p.blocks _ _ _ hbl] at hb2
        by_cases hbe : i = bi'
        · rw [if_pos hbe] at hb2
          obtain rfl := Option.some.inj hb2
          have hu0' : setRun b.used s c true i0 = true := hu0
          have hu1' : setRun b.used s c true (i0 + 1) = false := hu1
          show setBit b.stop (s + c - 1) true i0 = true
          by_cases hin : s ≤ i0 ∧ i0 < s + c
          · by_cases hend : i0 = s + c - 1
            · rw [hend]
              exact setBit_self _ _ _
            · exfalso
              have hx : setRun b.used s c true (i0 + 1) = true :=
                setRun_mem _ _ _ _ _ (by omega) (by omega)
              rw [hx] at hu1'
              exact absurd hu1' (by simp)
          · rw [setRun_notmem _ _ _ _ _ (by omega)] at hu0'
            by_cases hin1 : s ≤ i0 + 1 ∧ i0 + 1 < s + c
            · exfalso
              have hx : setRun b.used s c true (i0 + 1) = true :=
                setRun_mem _ _ _ _ _ hin1.1 hin1.2
              rw [hx] at hu1'
              exact absurd hu1' (by simp)
            · rw [setRun_notmem _ _ _ _ _ (by omega)] at hu1'
              exact setBit_true_mono _ _ _ (hre _ p i b hp hb i0 hu0' hu1')
        · rw [if_neg hbe] at hb2
          exact hre _ p bi' b' hp hb2 i0 hu0 hu1
      · rw [if_neg hpe] at hp'
        exact hre pi' p' bi' b' hp' hb' i0 hu0 hu1
  · -- a fresh block is mapped for the span
    rw [hc] at hsc hst
    have hscle : c ≤ sc := by
      rw [hsc]
      exact Nat.le_max_right _ _
    have hPools : st'.pools = st.pools.set (poolIdFor st.impl n)
        ({ p with blocks := (p.blocks ++
          [blockAlloc (newBlock rx rw sc) 0 c]) }) := by rw [hst]
    have hdNew : SpanData (blockAlloc (newBlock rx rw sc) 0 c) 0 c := by
      constructor
      · exact hc1
      · show 0 + c ≤ sc
        omega
      · intro j hj
        exact setRun_mem _ _ _ _ _ (by omega) (by omega)
      · exact setBit_self _ _ _
      · intro j hj
        show setBit (fun _ => false) (0 + c - 1) true (0 + j) = false
        rw [setBit_other _ _ _ _ (by omega)]
      · exact Or.inl rfl
    refine ⟨?_, ?_, ?_⟩
    · -- the frontier address is fresh
      simp only [List.map_cons, List.nodup_cons]
      refine ⟨?_, hnd⟩
      intro hmem
      obtain ⟨pr, hpr, hfst⟩ := List.mem_map.mp hmem
      obtain ⟨pi', p', bi', b', s', hp', hb', hd', ha', hm⟩ := hsp pr hpr
      have hg' : 0 < p'.granularity := hwf.poolG pi' p' hp'
      have hw' := hwf.blockWF pi' p' bi' b' hp' hb'
      have hb1 : s' + 1 ≤ b'.slotCount := by
        have hx := hd'.hb
        have hy := hd'.hc
        omega
      have hm1 : (s' + 1) * p'.granularity ≤ b'.slotCount * p'.granularity :=
        Nat.mul_le_mul_right _ hb1
      rw [Nat.add_mul] at hm1
      have hend := hw'.bend
      rw [hfst, hrx] at ha'
      omega
    · intro pr hpr
      rcases List.mem_cons.mp hpr with he | hmem
      · subst he
        refine ⟨poolIdFor st.impl n,
          ({ p with blocks := (p.blocks ++ [blockAlloc (newBlock rx rw sc) 0 c]) }),
          p.blocks.length,
          blockAlloc (newBlock rx rw sc) 0 c, 0, ?_, ?_, ?_, ?_, hn⟩
        · rw [hPools]
          exact lookup_set_self st.pools _ _ hpl
        · exact List.getElem?_concat_length p.blocks _
        · show SpanData (blockAlloc (newBlock rx rw sc) 0 c) 0 (roundUpSlots n p.granularity)
          rw [hc]
          exact hdNew
        · show rx = rx + 0 * p.granularity
          simp
      · obtain ⟨pi', p', bi', b', s', hp', hb', hd', ha', hm⟩ := hsp pr hmem
        by_cases hpe : pi' = poolIdFor st.impl n
        · subst hpe
          rw [hp] at hp'
          have hppe : p = p' := by simpa using hp'
          subst hppe
          have hbl' := lt_length_of_getElem? p.blocks bi' b' hb'
          refine ⟨poolIdFor st.impl n,
            ({ p with blocks := (p.blocks ++ [blockAlloc (newBlock rx rw sc) 0 c]) }),
            bi', b', s', ?_, ?_, hd', ha', hm⟩
          · rw [hPools]
            exact lookup_set_self st.pools _ _ hpl
          · show (p.blocks ++ [blockAlloc (newBlock rx rw sc) 0 c])[bi']? = some b'
            rw [List.getElem?_append, if_pos hbl']
            exact hb'
        · refine ⟨pi', p', bi', b', s', ?_, hb', hd', ha', hm⟩
          rw [hPools]
          rw [lookup_set_other st.pools _ pi' _ hpl (fun he => hpe he.symm)]
          exact hp'
    · intro pi' p' bi' b' hp' hb' i0 hu0 hu1
      rw [hPools] at hp'
      rw [getElem?_set_if st.pools _ _ _ hpl] at hp'
      by_cases hpe : poolIdFor st.impl n = pi'
      · rw [if_pos hpe] at hp'
        obtain rfl := Option.some.inj hp'
        have hb2 : (p.blocks ++ [blockAlloc (newBlock rx rw sc) 0 c])[bi']? = some b' := hb'
        by_cases hlt : bi' < p.blocks.length
        · rw [List.getElem?_append, if_pos hlt] at hb2
          exact hre _ p bi' b' hp hb2 i0 hu0 hu1
        · have hlen2 := lt_length_of_getElem? _ bi' b' hb2
          rw [List.length_append, List.length_cons, List.length_nil] at hlen2
          have he : bi' = p.blocks.length := by omega
          subst he
          rw [List.getElem?_concat_length] at hb2
          obtain rfl := Option.some.inj hb2
          have hu0' : setRun (fun _ => false) 0 c true i0 = true := hu0
          have hu1' : setRun (fun _ => false) 0 c true (i0 + 1) = false := hu1
          show setBit (fun _ => false) (0 + c - 1) true i0 = true
          by_cases hin : i0 < c
          · by_cases hin1 : i0 + 1 < c
            · exfalso
              have hx : setRun (fun _ => false) 0 c true (i0 + 1) = true :=
                setRun_mem _ _ _ _ _ (by omega) (by omega)
              rw [hx] at hu1'
              exact absurd hu1' (by simp)
            · rw [show i0 = 0 + c - 1 from by omega]
              exact setBit_self _ _ _
          · exfalso
            rw [setRun_notmem _ _ _ _ _ (by omega)] at hu0'
            exact absurd hu0' (by simp)
      · rw [if_neg hpe] at hp'
        exact hre pi' p' bi' b' hp' hb' i0 hu0 hu1

end JitModel

namespace JitModel

/-- A successful release of a live allocation's address keeps the ghost
live list faithful after removing that allocation. -/
theorem liveInv_release (st st' : JitState) (live : List (Nat × Nat)) (a : Nat)
    (hwf : StateWF st) (hli : LiveInv st live)
    (hany : live.any (fun pr => pr.1 == a) = true)
    (h : release st a = (.ok (), st')) :
    LiveInv st' (live.filter (fun pr => pr.1 != a)) := by
  obtain ⟨hnd, hsp, hre⟩ := hli
  obtain ⟨pr0, hpr0, hfst0⟩ : ∃ pr ∈ live, pr.1 = a := by
    obtain ⟨pr, hpr, he⟩ := List.any_eq_true.mp hany
    exact ⟨pr, hpr, by simpa using he⟩
  obtain ⟨pi0, p0, bi0, b0, s0, hp0, hb0, hd0, ha0, hm0⟩ := hsp pr0 hpr0
  obtain ⟨c0, hc0⟩ : ∃ c, roundUpSlots pr0.2 p0.granularity = c := ⟨_, rfl⟩
  rw [hc0] at hd0
  have hg0 : 0 < p0.granularity := hwf.poolG pi0 p0 hp0
  obtain ⟨pi, p, bi, b, hown, halign, hused, hst⟩ := release_ok_inv st st' a h
  have ha' : a = b0.rxAddr + s0 * p0.granularity := by
    rw [← hfst0]
    exact ha0
  have hcont : blockContains p0.granularity b0 a = true := by
    rw [ha']
    exact span_contains p0.granularity b0 s0 c0 hg0 hd0.hc hd0.hb
  have hfound := findOwner_eq st hwf a pi0 p0 bi0 b0 hp0 hb0 hcont
  rw [hown] at hfound
  have heq := Option.some.inj hfound
  have hpi : pi = pi0 := congrArg (fun t => t.1) heq
  have hpp : p = p0 := congrArg (fun t => t.2.1) heq
  have hbi : bi = bi0 := congrArg (fun t => t.2.2.1) heq
  have hbb : b = b0 := congrArg (fun t => t.2.2.2) heq
  rw [hpi, hpp, hbi, hbb] at hst
  have hoff : a - b0.rxAddr = s0 * p0.granularity := by omega
  have hdiv : (a - b0.rxAddr) / p0.granularity = s0 := by
    rw [hoff]
    exact Nat.mul_div_cancel s0 hg0
  have hlen : spanLen b0 s0 = c0 := spanLen_of_spanData b0 s0 c0 hd0
  rw [hdiv, hlen] at hst
  have hpl := lt_length_of_getElem? st.pools pi0 p0 hp0
  have hbl := lt_length_of_getElem? p0.blocks bi0 b0 hb0
  have hndF : ((live.filter (fun pr => pr.1 != a)).map Prod.fst).Nodup :=
    hnd.sublist ((List.filter_sublist live).map Prod.fst)
  cases hdes : blockEmpty (blockFree b0 s0 c0) &&
      (immediateReleaseOpt st.impl || hasEmptyExcept p0.blocks bi0) with
  | false =>
    rw [hdes] at hst
    simp only [Bool.false_eq_true, if_false] at hst
    have hPools : st'.pools = st.pools.set pi0
        ({ p0 with blocks := (p0.blocks.set bi0 (blockFree b0 s0 c0)) }) := by rw [hst]
    refine ⟨hndF, ?_, ?_⟩
    · intro pr' hpr'
      obtain ⟨hmem', hflt⟩ := List.mem_filter.mp hpr'
      have hne' : pr'.1 ≠ a := bne_iff_ne.mp hflt
      obtain ⟨pi', p', bi', b', s', hp', hb', hd', ha'2, hm'⟩ := hsp pr' hmem'
      by_cases hpe : pi0 = pi'
      · subst hpe
        rw [hp0] at hp'
        have hppe : p0 = p' := by simpa using hp'
        subst hppe
        by_cases hbe : bi0 = bi'
        · subst hbe
          rw [hb0] at hb'
          have hbbe : b0 = b' := by simpa using hb'
          subst hbbe
          have hsne : s' ≠ s0 := by
            intro he
            apply hne'
            rw [ha'2, he, ha']
          have hdisj := spanData_slot_disj b0 s' _ s0 c0 hd' hd0 hsne
          refine ⟨pi0,
            ({ p0 with blocks := (p0.blocks.set bi0 (blockFree b0 s0 c0)) }),
            bi0, blockFree b0 s0 c0, s', ?_, ?_, ?_, ha'2, hm'⟩
          · rw [hPools]
            exact lookup_set_self st.pools _ _ hpl
          · exact lookup_set_self p0.blocks bi0 _ hbl
          · show SpanData (blockFree b0 s0 c0) s' (roundUpSlots pr'.2 p0.granularity)
            exact spanData_clear b0 s0 c0 s' _ hd' hdisj.symm
        · refine ⟨pi0,
            ({ p0 with blocks := (p0.blocks.set bi0 (blockFree b0 s0 c0)) }),
            bi', b', s', ?_, ?_, hd', ha'2, hm'⟩
          · rw [hPools]
            exact lookup_set_self st.pools _ _ hpl
          · show (p0.blocks.set bi0 (blockFree b0 s0 c0))[bi']? = some b'
            rw [lookup_set_other p0.blocks bi0 bi' _ hbl hbe]
            exact hb'
      · refine ⟨pi', p', bi', b', s', ?_, hb', hd', ha'2, hm'⟩
        rw [hPools]
        rw [lookup_set_other st.pools pi0 pi' _ hpl hpe]
        exact hp'
    · intro pi' p' bi' b' hp' hb' i0 hu0 hu1
      rw [hPools] at hp'
      rw [getElem?_set_if st.pools _ _ _ hpl] at hp'
      by_cases hpe : pi0 = pi'
      · rw [if_pos hpe] at hp'
        obtain rfl := Option.some.inj hp'
        have hb2 : (p0.blocks.set bi0 (blockFree b0 s0 c0))[bi']? = some b' := hb'
        rw [getElem?_set_if p0.blocks _ _ _ hbl] at hb2
        by_cases hbe : bi0 = bi'
        · rw [if_pos hbe] at hb2
          obtain rfl := Option.some.inj hb2
          have hu0' : setRun b0.used s0 c0 false i0 = true := hu0
          have hu1' : setRun b0.used s0 c0 false (i0 + 1) = false := hu1
          show setRun b0.stop s0 c0 false i0 = true
          have hi0nin : ¬(s0 ≤ i0 ∧ i0 < s0 + c0) := by
            intro hm2
            rw [setRun_mem _ _ _ _ _ hm2.1 hm2.2] at hu0'
            exact absurd hu0' (by simp)
          rw [setRun_notmem _ _ _ _ _ (by omega)] at hu0'
          rw [setRun_notmem _ _ _ _ _ (by omega)]
          by_cases hin1 : s0 ≤ i0 + 1 ∧ i0 + 1 < s0 + c0
          · rcases hd0.hstart with h0 | hu | hsp2
            · omega
            · rw [show s0 - 1 = i0 from by omega] at hu
              rw [hu] at hu0'
              exact absurd hu0' (by simp)
            · rw [show s0 - 1 = i0 from by omega] at hsp2
              exact hsp2
          · rw [setRun_notmem _ _ _ _ _ (by omega)] at hu1'
            exact hre pi0 p0 bi0 b0 hp0 hb0 i0 hu0' hu1'
        · rw [if_neg hbe] at hb2
          exact hre pi0 p0 bi' b' hp0 hb2 i0 hu0 hu1
      · rw [if_neg hpe] at hp'
        exact hre pi' p' bi' b' hp' hb' i0 hu0 hu1
  | true =>
    rw [hdes] at hst
    simp only [eq_self_iff_true, if_true] at hst
    have hPools : st'.pools = st.pools.set pi0
        ({ p0 with blocks := p0.blocks.eraseIdx bi0 }) := by rw [hst]
    have hempty : blockEmpty (blockFree b0 s0 c0) = true :=
      (Bool.and_eq_true _ _ |>.mp hdes).1
    have hzero : blockUsedCount (blockFree b0 s0 c0) = 0 := by
      have hx := hempty
      simp only [blockEmpty, beq_iff_eq] at hx
      exact hx
    refine ⟨hndF, ?_, ?_⟩
    · intro pr' hpr'
      obtain ⟨hmem', hflt⟩ := List.mem_filter.mp hpr'
      have hne' : pr'.1 ≠ a := bne_iff_ne.mp hflt
      obtain ⟨pi', p', bi', b', s', hp', hb', hd', ha'2, hm'⟩ := hsp pr' hmem'
      by_cases hpe : pi0 = pi'
      · subst hpe
        rw [hp0] at hp'
        have hppe : p0 = p' := by simpa using hp'
        subst hppe
        by_cases hbe : bi0 = bi'
        · exfalso
          subst hbe
          rw [hb0] at hb'
          have hbbe : b0 = b' := by simpa using hb'
          subst hbbe
          have hsne : s' ≠ s0 := by
            intro he
            apply hne'
            rw [ha'2, he, ha']
          have hdisj := spanData_slot_disj b0 s' _ s0 c0 hd' hd0 hsne
          have hnin : s' < s0 ∨ s0 + c0 ≤ s' := by
            rcases hdisj with hx | hx
            · left
              have hy := hd'.hc
              omega
            · right
              omega
          have hus' : (blockFree b0 s0 c0).used s' = true := by
            show setRun b0.used s0 c0 false s' = true
            rw [setRun_notmem _ _ _ _ _ hnin]
            have hy := hd'.hused 0 (by have := hd'.hc; omega)
            simpa using hy
          have hlt : s' < b0.slotCount := by
            have hx := hd'.hb
            have hy := hd'.hc
            omega
          have hpos : 0 < blockUsedCount (blockFree b0 s0 c0) :=
            countTrue_pos_of_true _ b0.slotCount s' hlt hus'
          omega
        · have hbl' := lt_length_of_getElem? p0.blocks bi' b' hb'
          by_cases hlt : bi' < bi0
          · refine ⟨pi0, ({ p0 with blocks := p0.blocks.eraseIdx bi0 }),
              bi', b', s', ?_, ?_, hd', ha'2, hm'⟩
            · rw [hPools]
              exact lookup_set_self st.pools _ _ hpl
            · show (p0.blocks.eraseIdx bi0)[bi']? = some b'
              rw [getElem?_eraseIdx p0.blocks bi0 bi', if_pos hlt]
              exact hb'
          · refine ⟨pi0, ({ p0 with blocks := p0.blocks.eraseIdx bi0 }),
              bi' - 1, b', s', ?_, ?_, hd', ha'2, hm'⟩
            · rw [hPools]
              exact lookup_set_self st.pools _ _ hpl
            · show (p0.blocks.eraseIdx bi0)[bi' - 1]? = some b'
              rw [getElem?_eraseIdx p0.blocks bi0 (bi' - 1), if_neg (by omega)]
              rw [show bi' - 1 + 1 = bi' from by omega]
              exact hb'
      · refine ⟨pi', p', bi', b', s', ?_, hb', hd', ha'2, hm'⟩
        rw [hPools]
        rw [lookup_set_other st.pools pi0 pi' _ hpl hpe]
        exact hp'
    · intro pi' p' bi' b' hp' hb' i0 hu0 hu1
      rw [hPools] at hp'
      rw [getElem?_set_if st.pools _ _ _ hpl] at hp'
      by_cases hpe : pi0 = pi'
      · rw [if_pos hpe] at hp'
        obtain rfl := Option.some.inj hp'
        have hb2 : (p0.blocks.eraseIdx bi0)[bi']? = some b' := hb'
        rw [getElem?_eraseIdx p0.blocks bi0 bi'] at hb2
        by_cases hlt : bi' < bi0
        · rw [if_pos hlt] at hb2
          exact hre pi0 p0 bi' b' hp0 hb2 i0 hu0 hu1
        · rw [if_neg hlt] at hb2
          exact hre pi0 p0 (bi' + 1) b' hp0 hb2 i0 hu0 hu1
      · rw [if_neg hpe] at hp'
        exact hre pi' p' bi' b' hp' hb' i0 hu0 hu1

end JitModel

namespace JitModel

/-- A successful shrink of a live allocation's address keeps the ghost
live list faithful after updating that allocation's recorded size. -/
theorem liveInv_shrink (st st' : JitState) (live : List (Nat × Nat)) (a n : Nat)
    (hwf : StateWF st) (hli : LiveInv st live)
    (hany : live.any (fun pr => pr.1 == a) = true)
    (h : shrink st a n = (.ok (), st')) :
    LiveInv st' (live.map (fun pr => if pr.1 == a then (a, n) else pr)) := by
  obtain ⟨hnd, hsp, hre⟩ := hli
  obtain ⟨pr0, hpr0, hfst0⟩ : ∃ pr ∈ live, pr.1 = a := by
    obtain ⟨pr, hpr, he⟩ := List.any_eq_true.mp hany
    exact ⟨pr, hpr, by simpa using he⟩
  obtain ⟨pi0, p0, bi0, b0, s0, hp0, hb0, hd0, ha0, hm0⟩ := hsp pr0 hpr0
  obtain ⟨c0, hc0⟩ : ∃ c, roundUpSlots pr0.2 p0.granularity = c := ⟨_, rfl⟩
  rw [hc0] at hd0
  have hg0 : 0 < p0.granularity := hwf.poolG pi0 p0 hp0
  obtain ⟨hn1, pi, p, bi, b, hown, halign, hused, hle, hrun, hst⟩ :=
    shrink_ok_inv st st' a n h
  have ha' : a = b0.rxAddr + s0 * p0.granularity := by
    rw [← hfst0]
    exact ha0
  have hcont : blockContains p0.granularity b0 a = true := by
    rw [ha']
    exact span_contains p0.granularity b0 s0 c0 hg0 hd0.hc hd0.hb
  have hfound := findOwner_eq st hwf a pi0 p0 bi0 b0 hp0 hb0 hcont
  rw [hown] at hfound
  have heq := Option.some.inj hfound
  have hpi : pi = pi0 := congrArg (fun t => t.1) heq
  have hpp : p = p0 := congrArg (fun t => t.2.1) heq
  have hbi : bi = bi0 := congrArg (fun t => t.2.2.1) heq
  have hbb : b = b0 := congrArg (fun t => t.2.2.2) heq
  rw [hpi, hpp, hbi, hbb] at hst
  rw [hpp, hbb] at hle
  have hoff : a - b0.rxAddr = s0 * p0.granularity := by omega
  have hdiv : (a - b0.rxAddr) / p0.granularity = s0 := by
    rw [hoff]
    exact Nat.mul_div_cancel s0 hg0
  have hlen : spanLen b0 s0 = c0 := spanLen_of_spanData b0 s0 c0 hd0
  rw [hdiv, hlen] at hst hle
  obtain ⟨cN, hcN⟩ : ∃ k, roundUpSlots n p0.granularity = k := ⟨_, rfl⟩
  rw [hcN] at hst hle
  have hcN1 : 1 ≤ cN := by
    rw [← hcN]
    exact roundUpSlots_pos n p0.granularity hn1 hg0
  have hPools : st'.pools = st.pools.set pi0
      ({ p0 with blocks := (p0.blocks.set bi0 (blockShrink b0 s0 c0 cN)) }) := by
    rw [hst]
  have hpl := lt_length_of_getElem? st.pools pi0 p0 hp0
  have hbl := lt_length_of_getElem? p0.blocks bi0 b0 hb0
  have hdSelf : SpanData (blockShrink b0 s0 c0 cN) s0 cN :=
    spanData_shrink_self b0 s0 c0 cN hd0 hcN1 hle
  refine ⟨?_, ?_, ?_⟩
  · have hmapfst : (live.map (fun pr => if pr.1 == a then ((a, n) : Nat × Nat) else pr)).map
        Prod.fst = live.map Prod.fst := by
      rw [List.map_map]
      refine List.map_congr_left ?_
      intro pr hpr
      show (if pr.1 == a then ((a, n) : Nat × Nat) else pr).1 = pr.1
      by_cases he : pr.1 = a
      · simp [he]
      · simp [he]
    rw [hmapfst]
    exact hnd
  · intro pr2 hpr2
    obtain ⟨pr', hmem', hfe⟩ := List.mem_map.mp hpr2
    rw [← hfe]
    by_cases hea : pr'.1 = a
    · have hif : (if pr'.1 == a then ((a, n) : Nat × Nat) else pr') = (a, n) := by
        simp [hea]
      rw [hif]
      refine ⟨pi0,
        ({ p0 with blocks := (p0.blocks.set bi0 (blockShrink b0 s0 c0 cN)) }),
        bi0, blockShrink b0 s0 c0 cN, s0, ?_, ?_, ?_, ha', hn1⟩
      · rw [hPools]
        exact lookup_set_self st.pools _ _ hpl
      · exact lookup_set_self p0.blocks bi0 _ hbl
      · show SpanData (blockShrink b0 s0 c0 cN) s0 (roundUpSlots n p0.granularity)
        rw [hcN]
        exact hdSelf
    · have hif : (if pr'.1 == a then ((a, n) : Nat × Nat) else pr') = pr' := by
        simp [hea]
      rw [hif]
      obtain ⟨pi', p', bi', b', s', hp', hb', hd', ha'2, hm'⟩ := hsp pr' hmem'
      by_cases hpe : pi0 = pi'
      · subst hpe
        rw [hp0] at hp'
        have hppe : p0 = p' := by simpa using hp'
        subst hppe
        by_cases hbe : bi0 = bi'
        · subst hbe
          rw [hb0] at hb'
          have hbbe : b0 = b' := by simpa using hb'
          subst hbbe
          have hsne : s' ≠ s0 := by
            intro he
            apply hea
            rw [ha'2, he, ha']
          have hdisj := spanData_slot_disj b0 s' _ s0 c0 hd' hd0 hsne
          refine ⟨pi0,
            ({ p0 with blocks := (p0.blocks.set bi0 (blockShrink b0 s0 c0 cN)) }),
            bi0, blockShrink b0 s0 c0 cN, s', ?_, ?_, ?_, ha'2, hm'⟩
          · rw [hPools]
            exact lookup_set_self st.pools _ _ hpl
          · exact lookup_set_self p0.blocks bi0 _ hbl
          · show SpanData (blockShrink b0 s0 c0 cN) s' (roundUpSlots pr'.2 p0.granularity)
            exact spanData_shrink_other b0 s0 c0 cN s' _ hd' hcN1 hle hdisj.symm
        · refine ⟨pi0,
            ({ p0 with blocks := (p0.blocks.set bi0 (blockShrink b0 s0 c0 cN)) }),
            bi', b', s', ?_, ?_, hd', ha'2, hm'⟩
          · rw [hPools]
            exact lookup_set_self st.pools _ _ hpl
          · show (p0.blocks.set bi0 (blockShrink b0 s0 c0 cN))[bi']? = some b'
            rw [lookup_set_other p0.blocks bi0 bi' _ hbl hbe]
            exact hb'
      · refine ⟨pi', p', bi', b', s', ?_, hb', hd', ha'2, hm'⟩
        rw [hPools]
        rw [lookup_set_other st.pools pi0 pi' _ hpl hpe]
        exact hp'
  · intro pi' p' bi' b' hp' hb' i0 hu0 hu1
    rw [hPools] at hp'
    rw [getElem?_set_if st.pools _ _ _ hpl] at hp'
    by_cases hpe : pi0 = pi'
    · rw [if_pos hpe] at hp'
      obtain rfl := Option.some.inj hp'
      have hb2 : (p0.blocks.set bi0 (blockShrink b0 s0 c0 cN))[bi']? = some b' := hb'
      rw [getElem?_set_if p0.blocks _ _ _ hbl] at hb2
      by_cases hbe : bi0 = bi'
      · rw [if_pos hbe] at hb2
        obtain rfl := Option.some.inj hb2
        have hu0' : setRun b0.used (s0 + cN) (c0 - cN) false i0 = true := hu0
        have hu1' : setRun b0.used (s0 + cN) (c0 - cN) false (i0 + 1) = false := hu1
        show setBit (setRun b0.stop (s0 + cN) (c0 - cN) false) (s0 + cN - 1) true i0 = true
        have hi0nin : ¬(s0 + cN ≤ i0 ∧ i0 < s0 + cN + (c0 - cN)) := by
          intro hm2
          rw [setRun_mem _ _ _ _ _ hm2.1 hm2.2] at hu0'
          exact absurd hu0' (by simp)
        rw [setRun_notmem _ _ _ _ _ (by omega)] at hu0'
        by_cases hend : i0 = s0 + cN - 1
        · rw [hend]
          exact setBit_self _ _ _
        · rw [setBit_other _ _ _ _ hend]
          rw [setRun_notmem _ _ _ _ _ (by omega)]
          by_cases hin1 : s0 + cN ≤ i0 + 1 ∧ i0 + 1 < s0 + cN + (c0 - cN)
          · exfalso
            omega
          · rw [setRun_notmem _ _ _ _ _ (by omega)] at hu1'
            exact hre pi0 p0 bi0 b0 hp0 hb0 i0 hu0' hu1'
      · rw [if_neg hbe] at hb2
        exact hre pi0 p0 bi' b' hp0 hb2 i0 hu0 hu1
    · rw [if_neg hpe] at hp'
      exact hre pi' p' bi' b' hp' hb' i0 hu0 hu1

end JitModel

namespace JitModel

theorem ginv_init (params : CreateParams) (fuel : Nat) :
    GInv (initGhost params fuel) := by
  refine ⟨initState_wf params fuel, ?_⟩
  intro _
  refine ⟨List.nodup_nil, ?_, ?_⟩
  · intro pr hpr
    exact absurd hpr (List.not_mem_nil pr)
  · intro pi p bi b hp hb
    obtain ⟨_, hnil⟩ := initState_pools params fuel pi p hp
    rw [hnil] at hb
    simp at hb

theorem ginv_step (g : Ghost) (op : Op) (h : GInv g) : GInv (stepG g op) := by
  obtain ⟨hwf, hliv⟩ := h
  cases op with
  | alloc n =>
    rcases he : alloc g.st n with ⟨er, st'⟩
    cases er with
    | ok v =>
      obtain ⟨rx, rw⟩ := v
      have hred : stepG g (Op.alloc n) = { st := st', live := (rx, n) :: g.live, ok := g.ok } := by
        simp only [stepG]
        rw [he]
      rw [hred]
      refine ⟨alloc_wf g.st st' n rx rw hwf he, ?_⟩
      intro hok
      exact liveInv_alloc g.st st' g.live n rx rw hwf (hliv hok) he
    | error e =>
      have hred : stepG g (Op.alloc n) = { g with st := st' } := by
        simp only [stepG]
        rw [he]
      have h1 : (alloc g.st n).1 = Except.error e := by rw [he]
      have h2 := alloc_error_frame g.st n e h1
      rw [he] at h2
      have h3 : st' = g.st := h2
      rw [hred, h3]
      exact ⟨hwf, hliv⟩
  | release a =>
    rcases he : release g.st a with ⟨er, st'⟩
    cases er with
    | ok v =>
      obtain ⟨⟩ := v
      have hred : stepG g (Op.release a) =
          { st := st'
            live := g.live.filter (fun pr => pr.1 != a)
            ok := g.ok && g.live.any (fun pr => pr.1 == a) } := by
        simp only [stepG]
        rw [he]
      rw [hred]
      refine ⟨release_wf g.st st' a hwf he, ?_⟩
      intro hok
      obtain ⟨hok1, hany⟩ := Bool.and_eq_true _ _ |>.mp hok
      exact liveInv_release g.st st' g.live a hwf (hliv hok1) hany he
    | error e =>
      have hred : stepG g (Op.release a) = { g with st := st' } := by
        simp only [stepG]
        rw [he]
      have h1 : (release g.st a).1 = Except.error e := by rw [he]
      have h2 := release_error_frame g.st a e h1
      rw [he] at h2
      have h3 : st' = g.st := h2
      rw [hred, h3]
      exact ⟨hwf, hliv⟩
  | shrink a n =>
    rcases he : shrink g.st a n with ⟨er, st'⟩
    cases er with
    | ok v =>
      obtain ⟨⟩ := v
      have hred : stepG g (Op.shrink a n) =
          { st := st'
            live := g.live.map (fun pr => if pr.1 == a then (a, n) else pr)
            ok := g.ok && g.live.any (fun pr => pr.1 == a) } := by
        simp only [stepG]
        rw [he]
      rw [hred]
      refine ⟨shrink_wf g.st st' a n hwf he, ?_⟩
      intro hok
      obtain ⟨hok1, hany⟩ := Bool.and_eq_true _ _ |>.mp hok
      exact liveInv_shrink g.st st' g.live a n hwf (hliv hok1) hany he
    | error e =>
      have hred : stepG g (Op.shrink a n) = { g with st := st' } := by
        simp only [stepG]
        rw [he]
      have h1 : (shrink g.st a n).1 = Except.error e := by rw [he]
      have h2 := shrink_error_frame g.st a n e h1
      rw [he] at h2
      have h3 : st' = g.st := h2
      rw [hred, h3]
      exact ⟨hwf, hliv⟩

theorem ginv_run (g : Ghost) (ops : List Op) (h : GInv g) : GInv (runG g ops) := by
  induction ops generalizing g with
  | nil => exact h
  | cons op rest ih =>
    show GInv (runG (stepG g op) rest)
    exact ih (stepG g op) (ginv_step g op h)

end JitModel

namespace JitModel

/-- The per-call size restriction of the trace property: requested sizes
lie in `[1, 4*blockSize]`. -/
def opSizeOK (bs : Nat) : Op → Bool
  | .alloc n => decide (1 ≤ n ∧ n ≤ 4 * bs)
  | .release _ => true
  | .shrink _ n => decide (1 ≤ n ∧ n ≤ 4 * bs)

/-- All requested sizes of a call sequence lie in `[1, 4*blockSize]`. -/
def sizesOK (bs : Nat) (ops : List Op) : Bool := ops.all (opSizeOK bs)

/-- C1 (amended): for every sequence of allocate/release/shrink calls with
requested sizes in `[1, 4*blockSize]` in which every successful release and
shrink targets the executable address of a currently live allocation (the
ghost properness flag stays true), the address ranges of the live
allocations are pairwise disjoint.  The unrestricted claim is refuted by
`live_spans_overlap_after_interior_release`: `release` also succeeds on an
aligned interior address the allocator never returned, clearing part of a
live span, after which `alloc` hands the cleared slots out again. -/
theorem live_spans_pairwise_disjoint (params : CreateParams) (fuel : Nat) (ops : List Op)
    (hsz : sizesOK (blockSize (initState params fuel)) ops = true)
    (hok : (runG (initGhost params fuel) ops).ok = true) :
    (runG (initGhost params fuel) ops).live.Pairwise spansDisjoint := by
  have h := ginv_run (initGhost params fuel) ops (ginv_init params fuel)
  exact live_pairwise_disjoint _ _ h.1 (h.2 hok)

/-- Witness for the amended C1 theorem: a concrete proper trace (its
release targets the address returned by the first allocation). -/
theorem live_spans_pairwise_disjoint_witness :
    sizesOK (blockSize (initState sampleParams 2))
      [Op.alloc 100, Op.release 0, Op.alloc 200] = true ∧
    (runG (initGhost sampleParams 2) [Op.alloc 100, Op.release 0, Op.alloc 200]).ok = true ∧
    (runG (initGhost sampleParams 2)
      [Op.alloc 100, Op.release 0, Op.alloc 200]).live.Pairwise spansDisjoint :=
  ⟨by decide, by decide,
    live_spans_pairwise_disjoint sampleParams 2
      [Op.alloc 100, Op.release 0, Op.alloc 200] (by decide) (by decide)⟩

/-- C1 counterexample to the unrestricted claim: all requested sizes lie
in `[1, 4*blockSize]`, yet after releasing an aligned interior address
(64, never returned by `alloc`) the allocator returns a span overlapping
the still-live allocation at 0. -/
theorem live_spans_overlap_after_interior_release :
    sizesOK (blockSize (initState sampleParams 1))
      [Op.alloc 128, Op.release 64, Op.alloc 64] = true ∧
    ¬ (runG (initGhost sampleParams 1)
        [Op.alloc 128, Op.release 64, Op.alloc 64]).live.Pairwise spansDisjoint := by
  constructor
  · decide
  · decide

end JitModel
